import Mathlib

/-!
Verification of the rational-arithmetic matrix engine `hk_matrix/logic/core.py`.

The engine operates on sympy matrices with exact `Rational` entries.  We embed a
matrix as an entry function `ℕ → ℕ → ℚ` together with explicit row/column
counts (the loops of the source only ever read entries inside those bounds).
Step logs are embedded as lists of `(description, snapshot)` pairs; the Spanish
description strings of the source are embedded as a tagged inductive type
carrying the same data (row indices and exact factors) that the strings
interpolate.
-/

namespace HkMatrix

/-- Entry function of a matrix of exact rationals (sympy `Matrix` of `Rational`
entries, given by its dimensions and entries). -/
abbrev Ent := ℕ → ℕ → ℚ

/-- Tagged embedding of the step-description strings produced by the engines.
Each constructor corresponds to one message of the source, carrying the exact
data the source interpolates into the string. -/
inductive StepDesc where
  /-- "Matriz inicial" -/
  | initial
  /-- "Matriz resultado inicial (ceros)" (elementwise engines) -/
  | initialZeros
  /-- "Matriz aumentada [A|I]" / "Sistema aumentado [A|b]" -/
  | augInitial
  /-- "Intercambiar fila a+1 con fila b+1" / "Swap filas a+1↔b+1" -/
  | swap (a b : ℕ)
  /-- "Dividir fila r+1 por factor" -/
  | scale (r : ℕ) (factor : ℚ)
  /-- "R(i+1) <- R(i+1) - (factor)*R(r+1)" -/
  | combine (i r : ℕ) (factor : ℚ)
  /-- "Resultado: RREF" -/
  | rrefDone
  /-- "Resultado: U (triangular superior)" -/
  | upperDone
  /-- "Matriz original A" -/
  | transposeSrc
  /-- "Transponer: A^T (filas↔columnas)" -/
  | transposeDone
  /-- "No es cuadrada ⇒ determinante no definido" -/
  | notSquare
  /-- "La matriz no es cuadrada, no existe inversa." -/
  | notSquareInv
  /-- "Determinante = producto diagonal * (-1)^swaps = d" -/
  | detResult (d : ℚ)
  /-- "Izquierda = I: la derecha es A^(-1)" -/
  | invSuccess
  /-- "La izquierda no es I ⇒ A no es invertible" -/
  | invFail
  /-- "Calcular C[i+1,j+1] = ... = v" (elementwise engines) -/
  | cell (i j : ℕ) (v : ℚ)
  /-- "Suma completa A + B" -/
  | addDone
  /-- "Resta completa A - B" -/
  | subDone
  /-- "Producto completo A·B" -/
  | mulDone
  /-- "det(A) = d" -/
  | detOfA (d : ℚ)
  /-- "det(A) = 0 ⇒ el método de Cramer no aplica" -/
  | noUnique
  /-- "A_(i+1): reemplazar columna i+1 por b" -/
  | substCol (i : ℕ)
  /-- "det(A_(i+1)) = d" -/
  | detCol (i : ℕ) (d : ℚ)
  /-- "x_(i+1) = det(A_(i+1)) / det(A)" -/
  | solComp (i : ℕ) (x : ℚ)
  /-- "Vector solución x" -/
  | solVec
deriving DecidableEq, Repr

/-- A recorded step: tagged description together with the snapshot taken at
that instant (sympy `M.copy()`; values in Lean are immutable so the copy is
implicit). -/
abbrev Step := StepDesc × Ent

/-- sympy `M.row_swap(a, b)`. -/
def rowSwap (M : Ent) (a b : ℕ) : Ent := fun i j =>
  if i = a then M b j else if i = b then M a j else M i j

/-- sympy `M.row_op(r, lambda v, j: v / factor)`. -/
def rowScale (M : Ent) (r : ℕ) (f : ℚ) : Ent := fun i j =>
  if i = r then M i j / f else M i j

/-- sympy `M.row_op(i, lambda v, j: v - factor * M[r, j])`. -/
def rowCombine (M : Ent) (i r : ℕ) (f : ℚ) : Ent := fun i2 j =>
  if i2 = i then M i2 j - f * M r j else M i2 j

/-- Pivot search: scan rows `i, i+1, …` (`fuel` of them) for the first row
with a nonzero entry in column `c`. -/
def findPivotAux (M : Ent) (c : ℕ) : ℕ → ℕ → Option ℕ
  | _, 0 => none
  | i, fuel + 1 => if M i c ≠ 0 then some i else findPivotAux M c (i + 1) fuel

/-- `piv = None; for i in range(r, rows): if M[i, c] != 0: piv = i; break`. -/
def findPivot (M : Ent) (c r rows : ℕ) : Option ℕ :=
  findPivotAux M c r (rows - r)

/-- RREF-mode elimination: `for i in range(rows): if i != r and M[i, c] != 0:`
subtract `M[i, c] * row r` from row `i`, recording one step per row touched.
Iterates rows `i, i+1, …` (`fuel` of them). -/
def elimAllAux (r c : ℕ) : ℕ → ℕ → Ent → Ent × List Step
  | _, 0, M => (M, [])
  | i, fuel + 1, M =>
    if i ≠ r ∧ M i c ≠ 0 then
      let f := M i c
      let M2 := rowCombine M i r f
      let rest := elimAllAux r c (i + 1) fuel M2
      (rest.1, (StepDesc.combine i r f, M2) :: rest.2)
    else elimAllAux r c (i + 1) fuel M

/-- Triangular-mode elimination: `for i in range(r+1, rows): if M[i, c] != 0:`
subtract `(M[i, c] / M[r, c]) * row r` from row `i`.  Iterates rows
`i, i+1, …` (`fuel` of them). -/
def elimBelowAux (r c : ℕ) : ℕ → ℕ → Ent → Ent × List Step
  | _, 0, M => (M, [])
  | i, fuel + 1, M =>
    if M i c ≠ 0 then
      let f := M i c / M r c
      let M2 := rowCombine M i r f
      let rest := elimBelowAux r c (i + 1) fuel M2
      (rest.1, (StepDesc.combine i r f, M2) :: rest.2)
    else elimBelowAux r c (i + 1) fuel M

/-- The shared RREF-mode column sweep of `rref_steps` and `inverse_steps`:
`for c in range(cols): if r >= rows: break; …` with pivot search, swap,
scaling of the pivot row to 1, and elimination in every other row.  `fuel`
is the number of columns still to process, `c` the current column, `r` the
current pivot row.  Returns the final matrix and the recorded steps. -/
def rrefSweep (rows : ℕ) : ℕ → ℕ → ℕ → Ent → Ent × List Step
  | 0, _, _, M => (M, [])
  | fuel + 1, c, r, M =>
    if rows ≤ r then (M, [])
    else
      match findPivot M c r rows with
      | none => rrefSweep rows fuel (c + 1) r M
      | some piv =>
        let swapped := if piv ≠ r then
            ((rowSwap M piv r : Ent),
             ([(StepDesc.swap piv r, (rowSwap M piv r : Ent))] : List Step))
          else (M, ([] : List Step))
        let M1 := swapped.1
        let scaled := if M1 r c ≠ 1 then
            ((rowScale M1 r (M1 r c) : Ent),
             ([(StepDesc.scale r (M1 r c), (rowScale M1 r (M1 r c) : Ent))] : List Step))
          else (M1, ([] : List Step))
        let M2 := scaled.1
        let elim := elimAllAux r c 0 rows M2
        let rest := rrefSweep rows fuel (c + 1) (r + 1) elim.1
        (rest.1, swapped.2 ++ scaled.2 ++ elim.2 ++ rest.2)

/-- The triangular-mode column sweep of `upper_triangular_steps` and
`determinant_steps` (no scaling of the pivot row, elimination only below the
pivot, counting row swaps).  Returns the final matrix, the swap count and the
recorded steps. -/
def triSweep (rows : ℕ) : ℕ → ℕ → ℕ → ℕ → Ent → Ent × ℕ × List Step
  | 0, _, _, swaps, M => (M, swaps, [])
  | fuel + 1, c, r, swaps, M =>
    if rows ≤ r then (M, swaps, [])
    else
      match findPivot M c r rows with
      | none => triSweep rows fuel (c + 1) r swaps M
      | some piv =>
        let swapped := if piv ≠ r then
            ((rowSwap M piv r : Ent), swaps + 1,
             ([(StepDesc.swap piv r, (rowSwap M piv r : Ent))] : List Step))
          else (M, swaps, ([] : List Step))
        let M1 := swapped.1
        let elim := elimBelowAux r c (r + 1) (rows - (r + 1)) M1
        let rest := triSweep rows fuel (c + 1) (r + 1) swapped.2.1 elim.1
        (rest.1, rest.2.1, swapped.2.2 ++ elim.2 ++ rest.2.2)

/-- `rref_steps(A)`: record the initial matrix, run the RREF sweep over all
columns, record the final result. -/
def rref_steps (rows cols : ℕ) (A : Ent) : List Step :=
  let run := rrefSweep rows cols 0 0 A
  (StepDesc.initial, A) :: run.2 ++ [(StepDesc.rrefDone, run.1)]

/-- `upper_triangular_steps(A)`. -/
def upper_triangular_steps (rows cols : ℕ) (A : Ent) : List Step :=
  let run := triSweep rows cols 0 0 0 A
  (StepDesc.initial, A) :: run.2.2 ++ [(StepDesc.upperDone, run.1)]

/-- `det = Rational(1); for i in range(rows): det *= M[i, i]`. -/
def prodDiag (M : Ent) (rows : ℕ) : ℚ :=
  (List.range rows).foldl (fun a i => a * M i i) 1

/-- The final determinant value of `determinant_steps`:
product of the diagonal, negated when the swap count is odd. -/
def detValue (M : Ent) (rows swaps : ℕ) : ℚ :=
  if swaps % 2 = 1 then -(prodDiag M rows) else prodDiag M rows

/-- `determinant_steps(A)`: reject non-square input with a descriptive step,
otherwise triangularize without row scaling, counting swaps, and report
`(product of the diagonal) * (-1)^swaps`. -/
def determinant_steps (rows cols : ℕ) (A : Ent) : List Step :=
  if rows ≠ cols then
    [(StepDesc.initial, A), (StepDesc.notSquare, A)]
  else
    let run := triSweep rows cols 0 0 0 A
    (StepDesc.initial, A) :: run.2.2 ++
      [(StepDesc.detResult (detValue run.1 rows run.2.1), run.1)]

/-- `M.row_join(Matrix.eye(n))`: the augmented matrix `[A | I]`. -/
def augment (A : Ent) (n : ℕ) : Ent := fun i j =>
  if j < n then A i j else if j = n + i then 1 else 0

/-- `Aug[:, :n] == Matrix.eye(n)`: does the left block equal the identity? -/
def leftIsId (M : Ent) (n : ℕ) : Bool :=
  (List.range n).all fun i =>
    (List.range n).all fun j => M i j = (if i = j then (1 : ℚ) else 0)

/-- `inverse_steps(A)`: reject non-square input with a single explanatory
step, otherwise reduce `[A | I]` in RREF mode over the first `n` columns and
announce success or singularity depending on whether the left block is the
identity. -/
def inverse_steps (rows cols : ℕ) (A : Ent) : List Step :=
  if rows ≠ cols then
    [(StepDesc.notSquareInv, A)]
  else
    let n := rows
    let run := rrefSweep n n 0 0 (augment A n)
    let fin : StepDesc :=
      if leftIsId run.1 n then StepDesc.invSuccess else StepDesc.invFail
    (StepDesc.augInitial, augment A n) :: run.2 ++ [(fin, run.1)]

/-- `transpose_steps(A)`: log of length 2, original then transposed. -/
def transpose_steps (_rows _cols : ℕ) (A : Ent) : List Step :=
  [(StepDesc.transposeSrc, A), (StepDesc.transposeDone, fun i j => A j i)]

/-- Write a single cell of the result grid (`C[i, j] = val`). -/
def setCell (C : Ent) (i j : ℕ) (v : ℚ) : Ent := fun a b =>
  if a = i ∧ b = j then v else C a b

/-- Inner cell loop of the elementwise engines: `for j in range(c)` at row
`i`, computing cell `(i, j)` by `f` and recording one step per cell.  `j` is
the current column, `fuel` the number of columns left in this row. -/
def cellRowLoop (f : ℕ → ℕ → ℚ) (i : ℕ) : ℕ → ℕ → Ent → Ent × List Step
  | _, 0, C => (C, [])
  | j, fuel + 1, C =>
    let v := f i j
    let C2 := setCell C i j v
    let rest := cellRowLoop f i (j + 1) fuel C2
    (rest.1, (StepDesc.cell i j v, C2) :: rest.2)

/-- Outer cell loop of the elementwise engines: `for i in range(r)`, with
`fuel` rows left starting at row `i`, `c` columns per row. -/
def cellLoop (f : ℕ → ℕ → ℚ) (c : ℕ) : ℕ → ℕ → Ent → Ent × List Step
  | _, 0, C => (C, [])
  | i, fuel + 1, C =>
    let row := cellRowLoop f i 0 c C
    let rest := cellLoop f c (i + 1) fuel row.1
    (rest.1, row.2 ++ rest.2)

/-- Shared body of `add_steps` / `sub_steps` / `multiply_steps`: start from
the all-zeros result grid (`np.zeros`), fill cells in row-major order
recording one step per cell, then record the completed result. -/
def elemwiseSteps (r c : ℕ) (f : ℕ → ℕ → ℚ) (done : StepDesc) : List Step :=
  let z : Ent := fun _ _ => 0
  let run := cellLoop f c 0 r z
  (StepDesc.initialZeros, z) :: run.2 ++ [(done, run.1)]

/-- `add_steps(A, B)` (result shape `r × c` read from `A.shape`). -/
def add_steps (r c : ℕ) (A B : Ent) : List Step :=
  elemwiseSteps r c (fun i j => A i j + B i j) StepDesc.addDone

/-- `sub_steps(A, B)`. -/
def sub_steps (r c : ℕ) (A B : Ent) : List Step :=
  elemwiseSteps r c (fun i j => A i j - B i j) StepDesc.subDone

/-- The dot-product cell value of `multiply_steps`:
`np.sum([A[i,k]*B[k,j] for k in range(n)])`. -/
def dotCell (n : ℕ) (A B : Ent) (i j : ℕ) : ℚ :=
  ((List.range n).map fun k => A i k * B k j).sum

/-- `multiply_steps(A, B)` with `r, n = A.shape` and `_, c = B.shape`. -/
def multiply_steps (r n c : ℕ) (A B : Ent) : List Step :=
  elemwiseSteps r c (dotCell n A B) StepDesc.mulDone

/-- Drop row 0 and column `j0`: the minor used by cofactor expansion. -/
def minorE (A : Ent) (j0 : ℕ) : Ent := fun i j =>
  A (i + 1) (if j < j0 then j else j + 1)

/-- Independent cofactor-expansion determinant reference (expansion along the
first row); this also embeds sympy's exact `.det()`, which computes the
mathematical determinant of the rational matrix. -/
def cofDet : ℕ → Ent → ℚ
  | 0, _ => 1
  | n + 1, A =>
    ((List.range (n + 1)).map fun j =>
      (-1 : ℚ) ^ j * A 0 j * cofDet n (minorE A j)).sum

/-- `Ai = coeff.copy(); Ai[:, idx] = vec`: replace column `idx` of `A` by the
(single-column) vector `b`. -/
def substColE (A : Ent) (idx : ℕ) (b : Ent) : Ent := fun i j =>
  if j = idx then b i 0 else A i j

/-- A 1×1 snapshot `Matrix([[x]])`. -/
def oneByOne (x : ℚ) : Ent := fun i j => if i = 0 ∧ j = 0 then x else 0

/-- Column-substitution loop of `cramer_steps`: for `idx in range(n)` (with
`fuel` indices left), build `A_idx`, record it, record its determinant, and
record the solution component `det(A_idx) / det(A)`.  Returns the recorded
steps, the list of column determinants, and the exact solution components. -/
def cramerLoop (n : ℕ) (A b : Ent) (detA : ℚ) : ℕ → ℕ → List Step × List ℚ × List ℚ
  | _, 0 => ([], [], [])
  | idx, fuel + 1 =>
    let Ai := substColE A idx b
    let dAi := cofDet n Ai
    let s := dAi / detA
    let rest := cramerLoop n A b detA (idx + 1) fuel
    ((StepDesc.substCol idx, Ai) :: (StepDesc.detCol idx dAi, Ai) ::
       (StepDesc.solComp idx s, oneByOne s) :: rest.1,
     dAi :: rest.2.1, s :: rest.2.2)

/-- `[A | b]`: coefficient matrix augmented with the right-hand side. -/
def augmentCol (A : Ent) (n : ℕ) (b : Ent) : Ent := fun i j =>
  if j < n then A i j else if j = n then b i 0 else 0

/-- A column vector `Matrix(xs)` built from a list of rationals. -/
def colVec (xs : List ℚ) : Ent := fun i j => if j = 0 then xs.getD i 0 else 0

/-- `cramer_steps(A, b)`.  The shape validations raise `ValueError` in the
source; here they return `Except.error`.  On success the result mirrors the
source tuple `(solucion, pasos, detA, det_columnas, solucion_exacta)`; the
first component is the decimal convenience copy of the exact solution, which
in exact arithmetic coincides with `solucion_exacta` (or `none` when
`det(A) = 0`). -/
def cramer_steps (rows cols : ℕ) (A : Ent) (brows bcols : ℕ) (b : Ent) :
    Except String (Option (List ℚ) × List Step × ℚ × List ℚ × List ℚ) :=
  if bcols ≠ 1 then Except.error ("El vector b debe tener una sola columna.")
  else if rows ≠ cols then Except.error ("La matriz de coeficientes debe ser cuadrada.")
  else if brows ≠ rows then Except.error ("El vector b debe tener tantas filas como A.")
  else if cofDet rows A = 0 then
    Except.ok (none,
      [(StepDesc.augInitial, augmentCol A rows b), (StepDesc.detOfA (cofDet rows A), A),
       (StepDesc.noUnique, A)], cofDet rows A, [], [])
  else
    Except.ok (some (cramerLoop rows A b (cofDet rows A) 0 rows).2.2,
      (StepDesc.augInitial, augmentCol A rows b) :: (StepDesc.detOfA (cofDet rows A), A) ::
        (cramerLoop rows A b (cofDet rows A) 0 rows).1 ++
        [(StepDesc.solVec, colVec (cramerLoop rows A b (cofDet rows A) 0 rows).2.2)],
      cofDet rows A, (cramerLoop rows A b (cofDet rows A) 0 rows).2.1,
      (cramerLoop rows A b (cofDet rows A) 0 rows).2.2)

/-! ## Text parser (`parse_matrix`, `parse_vectors`)

The source parses free-form text into a float matrix.  Numeric values are
embedded as exact rationals (the spec's "promoting floats to exact rationals
by their shortest exact decimal representation"); the model covers decimal
integer and float literals (sign, digits with single embedded underscores,
fraction, exponent) and omits float specials (`inf`/`nan`), hex/octal/binary
and imaginary literals. -/

/-- Python whitespace as used by `str.strip` / `\s` (ASCII). -/
def isSpaceCh (ch : Char) : Bool :=
  ch == ' ' || ch == '\t' || ch == '\n' || ch == '\r' ||
    ch == Char.ofNat 11 || ch == Char.ofNat 12

/-- `text.strip()`. -/
def trimChars (s : List Char) : List Char :=
  ((s.dropWhile isSpaceCh).reverse.dropWhile isSpaceCh).reverse

/-- `s.replace(";", ",")` (applied before the literal parse). -/
def replaceSemis (s : List Char) : List Char :=
  s.map fun ch => if ch == ';' then ',' else ch

/-- Skip leading whitespace. -/
def skipWs (s : List Char) : List Char := s.dropWhile isSpaceCh

/-- Scan a run of digits with single embedded underscores (Python numeric
literal digit groups).  Accumulates the value in `v` and the digit count in
`k`; stops before anything that is not a digit or a well-placed underscore. -/
def scanDigits : List Char → ℕ → ℕ → ℕ × ℕ × List Char
  | [], v, k => (v, k, [])
  | ch :: rest, v, k =>
    if ch.isDigit then scanDigits rest (10 * v + (ch.toNat - 48)) (k + 1)
    else if ch == '_' then
      match rest with
      | ch2 :: rest2 =>
        if ch2.isDigit then scanDigits rest2 (10 * v + (ch2.toNat - 48)) (k + 1)
        else (v, k, ch :: rest)
      | [] => (v, k, [ch])
    else (v, k, ch :: rest)

/-- Parse the exponent suffix `(e|E)[+|-]digits`; `none` when absent or
malformed (`some none` cannot occur: the result is `(exponent?, rest)` and a
malformed exponent makes the whole token unparseable downstream because the
`e` remains unconsumed). -/
def scanExp : List Char → Option (ℤ × List Char)
  | ch :: rest =>
    if ch == 'e' || ch == 'E' then
      match rest with
      | '+' :: r2 =>
        let d := scanDigits r2 0 0
        if d.2.1 = 0 then none else some ((d.1 : ℤ), d.2.2)
      | '-' :: r2 =>
        let d := scanDigits r2 0 0
        if d.2.1 = 0 then none else some (-(d.1 : ℤ), d.2.2)
      | r2 =>
        let d := scanDigits r2 0 0
        if d.2.1 = 0 then none else some ((d.1 : ℤ), d.2.2)
    else none
  | [] => none

/-- Parse an unsigned decimal number `digits[.digits?] | .digits`, followed by
an optional exponent.  `intLit` reports whether the number was a plain
integer literal (no point, no exponent), and the digit string of the integer
part is returned for the leading-zero rule of the literal path.  Returns
`(value, isIntLiteral, leadingDigitsChars, rest)`. -/
def scanNumber (s : List Char) : Option (ℚ × Bool × List Char × List Char) :=
  match s with
  | '.' :: r =>
    let d := scanDigits r 0 0
    if d.2.1 = 0 then none
    else
      let frac : ℚ := (d.1 : ℚ) / (10 : ℚ) ^ d.2.1
      match scanExp d.2.2 with
      | some er => some (frac * (10 : ℚ) ^ er.1, false, [], er.2)
      | none => some (frac, false, [], d.2.2)
  | _ =>
    let d := scanDigits s 0 0
    if d.2.1 = 0 then none
    else
      let lead := s.take (s.length - d.2.2.length)
      match d.2.2 with
      | '.' :: r2 =>
        let fd := scanDigits r2 0 0
        let q : ℚ := (d.1 : ℚ) + (fd.1 : ℚ) / (10 : ℚ) ^ fd.2.1
        match scanExp fd.2.2 with
        | some er => some (q * (10 : ℚ) ^ er.1, false, lead, er.2)
        | none => some (q, false, lead, fd.2.2)
      | r2 =>
        match scanExp r2 with
        | some er => some ((d.1 : ℚ) * (10 : ℚ) ^ er.1, false, lead, er.2)
        | none => some ((d.1 : ℚ), true, lead, r2)

/-- `float(token)`: an optional single sign directly followed by a number,
consuming the whole token. -/
def pyFloat (tok : List Char) : Option ℚ :=
  let core := fun (s : List Char) (sgn : ℚ) =>
    match scanNumber s with
    | some (q, _, _, rest) => if rest = [] then some (sgn * q) else none
    | none => none
  match tok with
  | '+' :: r => core r 1
  | '-' :: r => core r (-1)
  | r => core r 1

/-- A Python literal value as far as the matrix parser is concerned:
a number or a (list/tuple) sequence. -/
inductive PyVal where
  | num (q : ℚ)
  | seq (l : List PyVal)

/-- Integer literals may not have leading zeros in Python 3 (except a run of
zeros itself); floats may. -/
def leadOk (isInt : Bool) (lead : List Char) : Bool :=
  if isInt then
    match lead with
    | '0' :: _ => lead.all fun ch => ch == '0' || ch == '_'
    | _ => true
  else true

mutual

/-- One literal value: `[items]`, `(items)` (a parenthesised single value
without trailing comma is the value itself), or a signed number (whitespace
allowed between the unary sign and the number, as in `ast.literal_eval`). -/
def parseVal : ℕ → List Char → Option (PyVal × List Char)
  | 0, _ => none
  | fuel + 1, s0 =>
    match skipWs s0 with
    | '[' :: r =>
      match parseItems fuel ']' r with
      | some (items, _, rest) => some (PyVal.seq items, rest)
      | none => none
    | '(' :: r =>
      match parseItems fuel ')' r with
      | some (items, sawComma, rest) =>
        match items, sawComma with
        | [x], false => some (x, rest)
        | _, _ => some (PyVal.seq items, rest)
      | none => none
    | '+' :: r =>
      match scanNumber (skipWs r) with
      | some (q, isInt, lead, rest) =>
        if leadOk isInt lead then some (PyVal.num q, rest) else none
      | none => none
    | '-' :: r =>
      match scanNumber (skipWs r) with
      | some (q, isInt, lead, rest) =>
        if leadOk isInt lead then some (PyVal.num (-q), rest) else none
      | none => none
    | r =>
      match scanNumber r with
      | some (q, isInt, lead, rest) =>
        if leadOk isInt lead then some (PyVal.num q, rest) else none
      | none => none

/-- Comma-separated values until the closing bracket `close`; trailing commas
allowed.  Returns the items, whether any comma appeared, and the rest. -/
def parseItems : ℕ → Char → List Char → Option (List PyVal × Bool × List Char)
  | 0, _, _ => none
  | fuel + 1, close, s0 =>
    match skipWs s0 with
    | [] => none
    | ch :: r =>
      if ch == close then some ([], false, r)
      else
        match parseVal fuel (ch :: r) with
        | none => none
        | some (v, rest) =>
          match skipWs rest with
          | [] => none
          | ch2 :: r2 =>
            if ch2 == close then some ([v], false, r2)
            else if ch2 == ',' then
              match skipWs r2 with
              | ch3 :: r3 =>
                if ch3 == close then some ([v], true, r3)
                else
                  match parseItems fuel close (ch3 :: r3) with
                  | some (vs, _, rest2) => some (v :: vs, true, rest2)
                  | none => none
              | [] => none
            else none

end

/-- A row of numbers (`ndim`-1 slice). -/
def asRowOfNums : PyVal → Option (List ℚ)
  | PyVal.num _ => none
  | PyVal.seq l =>
    l.mapM fun v =>
      match v with
      | PyVal.num q => some q
      | PyVal.seq _ => none

/-- `np.array(candidate, dtype=float)` followed by the `ndim == 2` test:
succeeds exactly on a nonempty sequence of equally long rows of numbers
(`np.array` raises on ragged or mixed nesting, which likewise falls through
to the free-form path). -/
def to2D : PyVal → Option (List (List ℚ))
  | PyVal.num _ => none
  | PyVal.seq l =>
    match l.mapM asRowOfNums with
    | none => none
    | some rows =>
      match rows with
      | [] => none
      | r0 :: rest => if rest.all fun r => r.length = r0.length then some (r0 :: rest) else none

/-- The literal branch of `parse_vectors`: a 1-D literal is reshaped to a
single row, a 2-D literal is kept. -/
def to2DVec (v : PyVal) : Option (List (List ℚ)) :=
  match asRowOfNums v with
  | some row => some [row]
  | none => to2D v

/-- Further elements of a top-level bare tuple: `, val , val …` with an
optional trailing comma. -/
def parseTopRest : ℕ → List Char → Option (List PyVal × List Char)
  | 0, _ => none
  | fuel + 1, s0 =>
    match skipWs s0 with
    | ',' :: r =>
      match skipWs r with
      | [] => some ([], [])
      | r2 =>
        match parseVal fuel r2 with
        | some (v, rest) =>
          match parseTopRest fuel rest with
          | some (vs, rest2) => some (v :: vs, rest2)
          | none => none
        | none => none
    | r => some ([], r)

/-- A top-level Python expression as accepted by `ast.literal_eval`: a single
value, or a bare comma-separated tuple (`"1, 2"` evaluates to `(1, 2)`). -/
def parseTop (fuel : ℕ) (s : List Char) : Option (PyVal × List Char) :=
  match parseVal fuel s with
  | none => none
  | some (v, rest) =>
    match skipWs rest with
    | ',' :: _ =>
      match parseTopRest fuel rest with
      | some (vs, rest2) => some (PyVal.seq (v :: vs), rest2)
      | none => none
    | r => some (v, r)

/-- `ast.literal_eval` on the (`;`→`,` rewritten) text followed by the numpy
conversion: parse one expression consuming the whole string, then convert. -/
def litParse (s : List Char) : Option (List (List ℚ)) :=
  match parseTop (2 * s.length + 4) s with
  | some (v, rest) => if skipWs rest = [] then to2D v else none
  | none => none

/-- Literal path of `parse_vectors` (with the 1-D reshape). -/
def litParseVec (s : List Char) : Option (List (List ℚ)) :=
  match parseTop (2 * s.length + 4) s with
  | some (v, rest) => if skipWs rest = [] then to2DVec v else none
  | none => none

/-- Split a character list at every character matching `p` (segments may be
empty; combined with the strip-and-filter below this matches splitting on
maximal runs as `re.split` does). -/
def splitOnPred (p : Char → Bool) : List Char → List (List Char)
  | [] => [[]]
  | ch :: rest =>
    let r := splitOnPred p rest
    if p ch then [] :: r
    else
      match r with
      | seg :: segs => (ch :: seg) :: segs
      | [] => [[ch]]

/-- `filter(None, [part.strip() for part in re.split(r"[;\n]+", s)])`. -/
def freeformLines (s : List Char) : List (List Char) :=
  ((splitOnPred (fun ch => ch == ';' || ch == '\n') s).map trimChars).filter
    fun l => ¬l.isEmpty

/-- `[t for t in re.split(r"[\s,]+", line) if t]`. -/
def lineTokens (line : List Char) : List (List Char) :=
  (splitOnPred (fun ch => isSpaceCh ch || ch == ',') line).filter fun l => ¬l.isEmpty

/-- One free-form row: every token converted by `float` (a bad token raises
`ValueError`). -/
def rowOfLine (line : List Char) : Except String (List ℚ) :=
  (lineTokens line).mapM fun t =>
    match pyFloat t with
    | some q => Except.ok q
    | none => Except.error ("could not convert string to float")

/-- Free-form path of `parse_matrix`: split into rows, convert tokens, then
check non-emptiness and rectangularity. -/
def freeformRows (s : List Char) : Except String (List (List ℚ)) := do
  let rows ← (freeformLines s).mapM rowOfLine
  match rows with
  | [] => Except.error ("No se pudo interpretar la matriz")
  | r0 :: rest =>
    if rest.all fun r => r.length = r0.length then Except.ok (r0 :: rest)
    else Except.error ("Todas las filas deben tener el mismo numero de columnas")

/-- `parse_matrix(text)`. -/
def parse_matrix (text : String) : Except String (List (List ℚ)) :=
  let s := trimChars text.toList
  if s.isEmpty then Except.error ("Entrada vacia")
  else
    match litParse (replaceSemis s) with
    | some m => Except.ok m
    | none => freeformRows s

/-- Transpose of a rectangular list-of-rows matrix. -/
def transposeLL (m : List (List ℚ)) : List (List ℚ) :=
  match m with
  | [] => []
  | r0 :: _ => (List.range r0.length).map fun j => m.map fun row => row.getD j 0

/-- Free-form path of `parse_vectors` (each line one vector, returned as
columns). -/
def freeformVecs (s : List Char) : Except String (List (List ℚ)) := do
  let vecs ← (freeformLines s).mapM rowOfLine
  match vecs with
  | [] => Except.error ("No se pudo interpretar los vectores")
  | v0 :: rest =>
    if rest.all fun v => v.length = v0.length then Except.ok (v0 :: rest)
    else Except.error ("Todos los vectores deben tener la misma dimension")

/-- `parse_vectors(text)`: vectors are parsed as rows and returned transposed
(each input vector becomes a column). -/
def parse_vectors (text : String) : Except String (List (List ℚ)) :=
  let s := trimChars text.toList
  if s.isEmpty then Except.error ("Entrada vacia")
  else
    match litParseVec (replaceSemis s) with
    | some m => Except.ok (transposeLL m)
    | none =>
      match freeformVecs s with
      | Except.ok vecs => Except.ok (transposeLL vecs)
      | Except.error e => Except.error e

/-! ## Numeric formatter (`fmt_num`, `fmt_matrix`)

The source formats Python floats; values are modelled as exact rationals and
`round` as exact round-half-to-even at the given decimal position. -/

/-- Floor of a rational (kernel-computable form). -/
def ratFloor (q : ℚ) : ℤ := Int.fdiv q.num (q.den : ℤ)

/-- Python `round` to an integer: round half to even. -/
def roundHalfEven (q : ℚ) : ℤ :=
  let f := ratFloor q
  let r := q - (f : ℚ)
  if r < 1 / 2 then f
  else if 1 / 2 < r then f + 1
  else if f % 2 = 0 then f else f + 1

/-- Python `round(x, decimals)`. -/
def pyRound (x : ℚ) (decimals : ℕ) : ℚ :=
  (roundHalfEven (x * (10 : ℚ) ^ decimals) : ℚ) / (10 : ℚ) ^ decimals

/-- Digit characters of a natural number (little help for the fixed-point
rendering below). -/
def natDigitsStr (n : ℕ) : String := toString n

/-- Render `v` (already rounded to `d` decimals) as `f"{v:.{d}f}"` would:
sign, integer part, point, exactly `d` fraction digits. -/
def fixedRender (v : ℚ) (d : ℕ) : List Char :=
  let m : ℤ := ratFloor (v * (10 : ℚ) ^ d)
  let a : ℕ := m.natAbs
  let ip : ℕ := a / 10 ^ d
  let fp : ℕ := a % 10 ^ d
  let fpStr := natDigitsStr fp
  let fpPadded := List.replicate (d - fpStr.length) '0' ++ fpStr.toList
  (if m < 0 then ['-'] else []) ++ (natDigitsStr ip).toList ++
    (if d = 0 then [] else '.' :: fpPadded)

/-- `s.rstrip('0').rstrip('.')`. -/
def stripZerosDot (s : List Char) : List Char :=
  let r := s.reverse.dropWhile fun ch => ch == '0'
  (r.dropWhile fun ch => ch == '.').reverse

/-- `fmt_num(x, decimals)`: round to `decimals` places; if the result is
within `10^(-decimals)` of its nearest integer render it bare, otherwise
render fixed-point and strip trailing zeros and the trailing point. -/
def fmt_num (x : ℚ) (decimals : ℕ) : String :=
  let v := pyRound x decimals
  let iv := roundHalfEven v
  if |v - (iv : ℚ)| < 1 / (10 : ℚ) ^ decimals then toString iv
  else String.mk (stripZerosDot (fixedRender v decimals))

/-- One formatted row of `fmt_matrix`. -/
def fmtRow (row : List ℚ) (precision : ℕ) : String :=
  "[" ++ String.intercalate (", ") (row.map fun x => fmt_num x precision) ++ "]"

/-- `fmt_matrix(arr, precision)`: the empty-brackets token when
`arr.size == 0`, otherwise the bracketed rows joined by a newline (plus the
alignment space) inside outer brackets. -/
def fmt_matrix (m : List (List ℚ)) (precision : ℕ) : String :=
  if m.all List.isEmpty then "[]"
  else "[" ++ String.intercalate ("\n ") (m.map fun row => fmtRow row precision) ++ "]"

/-! ## Shared helpers for the theorems -/

/-- Entry function of a concrete list-of-rows matrix (out-of-range entries
read 0, which no in-range loop of the engines ever consults). -/
def entOf (l : List (List ℚ)) : Ent := fun i j => (l.getD i []).getD j 0

/-- The top-left `n × n` block of an entry function as a Mathlib matrix. -/
def toSq (M : Ent) (n : ℕ) : Matrix (Fin n) (Fin n) ℚ :=
  Matrix.of fun i j => M (i : ℕ) (j : ℕ)

/-- Which step descriptions mark the initial state of a log. -/
def StepDesc.isInitial : StepDesc → Bool
  | .initial | .initialZeros | .augInitial | .transposeSrc => true
  | _ => false

/-- Which step descriptions mark the final result of a log. -/
def StepDesc.isFinal : StepDesc → Bool
  | .rrefDone | .upperDone | .transposeDone | .notSquare | .detResult _
  | .invSuccess | .invFail | .addDone | .subDone | .mulDone
  | .noUnique | .solVec => true
  | _ => false

/-- A well-formed log: length at least two, an initial-state marker first and
a final-result marker last. -/
def goodLog (l : List Step) : Prop :=
  2 ≤ l.length ∧ (∃ s, l.head? = some s ∧ s.1.isInitial = true) ∧
    ∃ s, l.getLast? = some s ∧ s.1.isFinal = true

theorem goodLog_shape (a b : Step) (mid : List Step)
    (ha : a.1.isInitial = true) (hb : b.1.isFinal = true) :
    goodLog (a :: mid ++ [b]) := by
  refine ⟨by simp, ⟨a, by simp, ha⟩, ⟨b, ?_, hb⟩⟩
  show ((a :: mid) ++ [b]).getLast? = some b
  exact List.getLast?_concat _

/-- On a square input, `inverse_steps` takes the augmented-reduction branch. -/
theorem inverse_steps_square (n : ℕ) (A : Ent) :
    inverse_steps n n A = (StepDesc.augInitial, augment A n) ::
      (rrefSweep n n 0 0 (augment A n)).2 ++
      [(if leftIsId (rrefSweep n n 0 0 (augment A n)).1 n then StepDesc.invSuccess
        else StepDesc.invFail, (rrefSweep n n 0 0 (augment A n)).1)] := by
  unfold inverse_steps
  rw [if_neg (by simp)]

/-- What the spec sentence of C7 literally describes for a non-empty matrix:
the bracketed rows joined by newlines (no outer bracket pair, no alignment
space).  Spec-side definition, to be compared with `fmt_matrix`. -/
def fmtMatrixClaimed (m : List (List ℚ)) (precision : ℕ) : String :=
  if m.all List.isEmpty then "[]"
  else String.intercalate ("\n") (m.map fun row => fmtRow row precision)

/-! ## C9 — `parse_vectors` vs `parse_matrix` on a 1-D literal -/

/-- C9: `parse_vectors` accepts the 1-D bracketed literal `"[1, 2, 3]"`,
treating it as a single row vector and returning it transposed as a 3×1
column, while `parse_matrix` rejects the same input: its literal path refuses
the non-2-D structure (`litParse` is `none`) and its free-form path then
fails on the bracketed token. -/
theorem c9_parse_vectors_accepts_1d_literal :
    parse_vectors ("[1, 2, 3]") = Except.ok [[1], [2], [3]] ∧
      litParse (replaceSemis (trimChars (String.toList ("[1, 2, 3]")))) = none ∧
      parse_matrix ("[1, 2, 3]") = Except.error ("could not convert string to float") := by
  refine ⟨by rfl, by rfl, by rfl⟩

/-! ## C7 — `fmt_matrix` rendering -/

unseal Rat.add Rat.mul Rat.sub Rat.inv in
/-- C7 (counterexample): the claim renders a non-empty matrix as the
bracketed rows joined by bare newlines, but `fmt_matrix` additionally wraps
the whole rendering in an outer bracket pair and joins with a newline plus an
alignment space: at `[[1]]` the code yields `"[[1]]"`, the claimed rendering
`"[1]"`. -/
theorem c7_counterexample :
    fmt_matrix [[1]] 2 = "[[1]]" ∧ fmtMatrixClaimed [[1]] 2 = "[1]" ∧
      fmt_matrix [[1]] 2 ≠ fmtMatrixClaimed [[1]] 2 := by
  refine ⟨by decide, by decide, by decide⟩

/-- C7 (amended): `fmt_matrix` renders an empty matrix (`size == 0`) as the
literal empty-brackets token; a non-empty matrix is rendered as one bracketed
row per line — each row's cells formatted by `fmt_num` and joined by `", "` —
with the lines joined by a newline plus one alignment space and the whole
wrapped in an outer bracket pair. -/
theorem c7_fmt_matrix_structure (m : List (List ℚ)) (precision : ℕ) :
    ((m.all List.isEmpty) = true → fmt_matrix m precision = "[]") ∧
    ((m.all List.isEmpty) = false → fmt_matrix m precision =
      "[" ++ String.intercalate ("\n ")
        (m.map fun row => "[" ++ String.intercalate (", ")
          (row.map fun x => fmt_num x precision) ++ "]") ++ "]") := by
  constructor
  · intro h; simp [fmt_matrix, h]
  · intro h; simp [fmt_matrix, h, fmtRow]

/-- C7 witness: the amended statement evaluated at the empty matrix and at
`[[1, 2], [3, 4]]`. -/
theorem c7_fmt_matrix_structure_witness :
    fmt_matrix ([] : List (List ℚ)) 2 = "[]" ∧
      fmt_matrix [[1, 2], [3, 4]] 2 =
        "[" ++ String.intercalate ("\n ")
          ([[(1 : ℚ), 2], [3, 4]].map fun row => "[" ++ String.intercalate (", ")
            (row.map fun x => fmt_num x 2) ++ "]") ++ "]" :=
  ⟨(c7_fmt_matrix_structure [] 2).1 (by decide),
   (c7_fmt_matrix_structure [[1, 2], [3, 4]] 2).2 (by decide)⟩

/-! ## C6 — log shape of every engine -/

/-- C6 (counterexample): on a non-square input `inverse_steps` returns a
single explanatory step, not an initial-state/final-result pair, so its log
has length 1, refuting the claimed lower bound of 2. -/
theorem c6_counterexample :
    (inverse_steps 1 2 (entOf [[1, 2]])).length = 1 := by rfl

/-- C6 (amended): every step-producing engine returns a log that starts with
an initial-state step, ends with a distinct final-result step and has length
at least 2 — except `inverse_steps` on a non-square input, which returns a
single explanatory step.  (`cramer_steps` raises on malformed shapes and is
covered on every input on which it returns a log.) -/
theorem c6_log_shape (rows cols n r c brows bcols : ℕ) (A B b : Ent) :
    goodLog (rref_steps rows cols A) ∧
    goodLog (upper_triangular_steps rows cols A) ∧
    goodLog (determinant_steps rows cols A) ∧
    (rows = cols → goodLog (inverse_steps rows cols A)) ∧
    (rows ≠ cols → (inverse_steps rows cols A).length = 1) ∧
    goodLog (add_steps r c A B) ∧
    goodLog (sub_steps r c A B) ∧
    goodLog (multiply_steps r n c A B) ∧
    goodLog (transpose_steps rows cols A) ∧
    (∀ res, cramer_steps rows cols A brows bcols b = Except.ok res →
      goodLog res.2.1) := by
  refine ⟨?_, ?_, ?_, ?_, ?_, ?_, ?_, ?_, ?_, ?_⟩
  · exact goodLog_shape _ _ _ rfl rfl
  · exact goodLog_shape _ _ _ rfl rfl
  · by_cases h : rows = cols
    · unfold determinant_steps
      rw [if_neg (by simp [h])]
      exact goodLog_shape _ _ _ rfl rfl
    · unfold determinant_steps
      rw [if_pos h]
      exact goodLog_shape (StepDesc.initial, A) (StepDesc.notSquare, A) [] rfl rfl
  · intro h
    subst h
    rw [inverse_steps_square]
    exact goodLog_shape _ _ _ rfl (by split <;> rfl)
  · intro h
    unfold inverse_steps
    rw [if_pos h]
    rfl
  · exact goodLog_shape _ _ _ rfl rfl
  · exact goodLog_shape _ _ _ rfl rfl
  · exact goodLog_shape _ _ _ rfl rfl
  · exact goodLog_shape (StepDesc.transposeSrc, A) (StepDesc.transposeDone, fun i j => A j i) [] rfl rfl
  · intro res hres
    unfold cramer_steps at hres
    split at hres
    · exact absurd hres (by simp)
    · split at hres
      · exact absurd hres (by simp)
      · split at hres
        · exact absurd hres (by simp)
        · split at hres
          · injection hres with h5
            subst h5
            exact goodLog_shape (StepDesc.augInitial, augmentCol A rows b)
              (StepDesc.noUnique, A) [(StepDesc.detOfA (cofDet rows A), A)] rfl rfl
          · injection hres with h5
            subst h5
            exact goodLog_shape (StepDesc.augInitial, augmentCol A rows b)
              (StepDesc.solVec, colVec (cramerLoop rows A b (cofDet rows A) 0 rows).2.2)
              ((StepDesc.detOfA (cofDet rows A), A) ::
                (cramerLoop rows A b (cofDet rows A) 0 rows).1) rfl rfl

/-- C6 witness: the amended statement at a square invertible matrix (log of
length at least 2) and at a 1×2 matrix (single-step rejection by
`inverse_steps`). -/
theorem c6_log_shape_witness :
    goodLog (inverse_steps 2 2 (entOf [[2, 1], [1, 1]])) ∧
      (inverse_steps 1 2 (entOf [[1, 2]])).length = 1 :=
  ⟨(c6_log_shape 2 2 0 0 0 0 0 (entOf [[2, 1], [1, 1]]) (entOf [[2, 1], [1, 1]])
      (entOf [[2, 1], [1, 1]])).2.2.2.1 rfl,
   (c6_log_shape 1 2 0 0 0 0 0 (entOf [[1, 2]]) (entOf [[1, 2]])
      (entOf [[1, 2]])).2.2.2.2.1 (by decide)⟩

/-! ## C10 — elementwise engines fill the result grid cell by cell -/

/-- Row `i` with columns `j ≤ b < t` overwritten by `f` on top of `C`. -/
def fillRow (f : ℕ → ℕ → ℚ) (i j t : ℕ) (C : Ent) : Ent := fun a b =>
  if a = i ∧ j ≤ b ∧ b < t then f a b else C a b

/-- Cells from row `i` downwards whose row-major position (relative to row
`i`) is below `m` overwritten by `f` on top of `C`. -/
def fillUpTo (f : ℕ → ℕ → ℚ) (c i m : ℕ) (C : Ent) : Ent := fun a b =>
  if i ≤ a ∧ b < c ∧ (a - i) * c + b < m then f a b else C a b

theorem fillRow_zero (f : ℕ → ℕ → ℚ) (i j : ℕ) (C : Ent) :
    fillRow f i j j C = C := by
  funext a b
  unfold fillRow
  rw [if_neg]
  rintro ⟨-, h1, h2⟩
  omega

theorem fillRow_setCell (f : ℕ → ℕ → ℚ) (i j t : ℕ) (C : Ent) (h : j < t) :
    fillRow f i (j + 1) t (setCell C i j (f i j)) = fillRow f i j t C := by
  funext a b
  unfold fillRow setCell
  by_cases ha : a = i
  · subst ha
    by_cases hb1 : j + 1 ≤ b ∧ b < t
    · rw [if_pos ⟨rfl, hb1.1, hb1.2⟩, if_pos ⟨rfl, by omega, hb1.2⟩]
    · rw [if_neg (by rintro ⟨-, h1, h2⟩; exact hb1 ⟨h1, h2⟩)]
      by_cases hb2 : b = j
      · subst hb2
        rw [if_pos ⟨rfl, rfl⟩, if_pos ⟨rfl, le_refl _, h⟩]
      · rw [if_neg (by rintro ⟨-, h2⟩; exact hb2 h2),
          if_neg (by rintro ⟨-, h1, h2⟩; omega)]
  · rw [if_neg (by rintro ⟨h1, -⟩; exact ha h1),
      if_neg (by rintro ⟨h1, -⟩; exact ha h1),
      if_neg (by rintro ⟨h1, -⟩; exact ha h1)]

theorem cellRowLoop_spec (f : ℕ → ℕ → ℚ) (i : ℕ) :
    ∀ (fuel j : ℕ) (C : Ent),
      cellRowLoop f i j fuel C =
        (fillRow f i j (j + fuel) C,
         (List.range fuel).map fun u =>
           (StepDesc.cell i (j + u) (f i (j + u)), fillRow f i j (j + u + 1) C)) := by
  intro fuel
  induction fuel with
  | zero =>
    intro j C
    rw [cellRowLoop, List.range_zero, List.map_nil, Nat.add_zero, fillRow_zero]
  | succ fuel ih =>
    intro j C
    rw [cellRowLoop]
    have hstep : fillRow f i j (j + 1) C = setCell C i j (f i j) := by
      rw [← fillRow_setCell f i j (j + 1) C (by omega), fillRow_zero]
    rw [ih (j + 1) (setCell C i j (f i j))]
    rw [List.range_succ_eq_map, List.map_cons, List.map_map]
    refine congrArg₂ Prod.mk ?_ (congrArg₂ List.cons ?_ ?_)
    · rw [fillRow_setCell f i j (j + 1 + fuel) C (by omega)]

      rw [show j + 1 + fuel = j + (fuel + 1) by omega]
    · rw [Nat.add_zero, hstep]
    · refine List.map_congr_left fun u hu => ?_
      have h1 : j + 1 + u = j + (u + 1) := by omega
      rw [Function.comp_apply, fillRow_setCell f i j (j + 1 + u + 1) C (by omega), h1]

theorem fillUpTo_zero (f : ℕ → ℕ → ℚ) (c i : ℕ) (C : Ent) :
    fillUpTo f c i 0 C = C := by
  funext a b
  unfold fillUpTo
  rw [if_neg]
  rintro ⟨-, -, h⟩
  omega

theorem fillUpTo_shift (f : ℕ → ℕ → ℚ) (c i m : ℕ) (C : Ent) :
    fillUpTo f c (i + 1) m (fillRow f i 0 c C) = fillUpTo f c i (m + c) C := by
  funext a b
  unfold fillUpTo fillRow
  by_cases hb : b < c
  · by_cases ha : i + 1 ≤ a
    · have hsub : a - i = (a - (i + 1)) + 1 := by omega
      have hmul : (a - i) * c = (a - (i + 1)) * c + c := by
        rw [hsub, Nat.succ_mul]
      by_cases hm : (a - (i + 1)) * c + b < m
      · rw [if_pos ⟨ha, hb, hm⟩, if_pos ⟨by omega, hb, by omega⟩]
      · rw [if_neg (by rintro ⟨-, -, h⟩; exact hm h),
          if_neg (by rintro ⟨h1, -⟩; omega),
          if_neg (by rintro ⟨-, -, h⟩; omega)]
    · by_cases ha2 : i ≤ a
      · have haa : a = i := by omega
        have hzero : (a - i) * c = 0 := by rw [haa]; simp
        rw [if_neg (by rintro ⟨h1, -⟩; exact ha h1), if_pos ⟨haa, by omega, hb⟩,
          if_pos ⟨ha2, hb, by rw [hzero]; omega⟩]
      · rw [if_neg (by rintro ⟨h1, -⟩; omega), if_neg (by rintro ⟨h1, -⟩; omega),
          if_neg (by rintro ⟨h1, -⟩; omega)]
  · rw [if_neg (by rintro ⟨-, h, -⟩; exact hb h), if_neg (by rintro ⟨-, -, h⟩; exact hb h),
      if_neg (by rintro ⟨-, h, -⟩; exact hb h)]

theorem fillRow_eq_fillUpTo (f : ℕ → ℕ → ℚ) (c i u : ℕ) (C : Ent) (hu : u < c) :
    fillRow f i 0 (u + 1) C = fillUpTo f c i (u + 1) C := by
  funext a b
  unfold fillRow fillUpTo
  by_cases ha : a = i
  · subst ha
    by_cases hb : b < u + 1
    · rw [if_pos ⟨rfl, by omega, hb⟩, if_pos ⟨le_refl _, by omega, by simpa using hb⟩]
    · rw [if_neg (by rintro ⟨-, -, h⟩; exact hb h),
        if_neg (by rintro ⟨-, -, h⟩; simp at h; omega)]
  · by_cases ha2 : i ≤ a
    · have h1 : 1 ≤ a - i := by omega
      rw [if_neg (by rintro ⟨h2, -⟩; exact ha h2), if_neg ?_]
      rintro ⟨-, -, h⟩
      have : c ≤ (a - i) * c := Nat.le_mul_of_pos_left c (by omega)
      omega
    · rw [if_neg (by rintro ⟨h2, -⟩; exact ha h2), if_neg (by rintro ⟨h2, -⟩; omega)]

theorem cellLoop_spec (f : ℕ → ℕ → ℚ) (c : ℕ) :
    ∀ (fuel i : ℕ) (C : Ent),
      (cellLoop f c i fuel C).1 = fillUpTo f c i (fuel * c) C ∧
      (cellLoop f c i fuel C).2.length = fuel * c ∧
      ∀ u, u < fuel * c → (cellLoop f c i fuel C).2.get? u =
        some (StepDesc.cell (i + u / c) (u % c) (f (i + u / c) (u % c)),
              fillUpTo f c i (u + 1) C) := by
  intro fuel
  induction fuel with
  | zero =>
    intro i C
    refine ⟨?_, by rw [cellLoop]; simp, ?_⟩
    · rw [cellLoop, Nat.zero_mul, fillUpTo_zero]
    · intro u hu
      rw [Nat.zero_mul] at hu
      omega
  | succ fuel ih =>
    intro i C
    have hrow := cellRowLoop_spec f i c 0 C
    have hrowfst : (cellRowLoop f i 0 c C).1 = fillRow f i 0 c C := by
      rw [hrow]
      simp
    have hrowsnd : (cellRowLoop f i 0 c C).2 =
        (List.range c).map fun u =>
          (StepDesc.cell i u (f i u), fillRow f i 0 (u + 1) C) := by
      rw [hrow]
      simp
    obtain ⟨ih1, ih2, ih3⟩ := ih (i + 1) (fillRow f i 0 c C)
    have hmul : (fuel + 1) * c = c + fuel * c := by ring
    refine ⟨?_, ?_, ?_⟩
    · show (cellLoop f c (i + 1) fuel (cellRowLoop f i 0 c C).1).1 = _
      rw [hrowfst, ih1, fillUpTo_shift, hmul, Nat.add_comm (fuel * c) c]
    · show ((cellRowLoop f i 0 c C).2 ++
        (cellLoop f c (i + 1) fuel (cellRowLoop f i 0 c C).1).2).length = _
      rw [List.length_append, hrowsnd, hrowfst, ih2, List.length_map,
        List.length_range, hmul]
    · intro u hu
      show ((cellRowLoop f i 0 c C).2 ++
        (cellLoop f c (i + 1) fuel (cellRowLoop f i 0 c C).1).2).get? u = _
      by_cases huc : u < c
      · have hc : 0 < c := by omega
        rw [List.get?_append (by rw [hrowsnd]; simpa using huc), hrowsnd]
        simp only [List.get?_map, List.get?_range huc, Option.map_some']
        rw [Nat.div_eq_of_lt huc, Nat.mod_eq_of_lt huc,
          fillRow_eq_fillUpTo f c i u C huc]
        rfl
      · have hc : 0 < c := by
          rcases Nat.eq_zero_or_pos c with h | h
          · rw [h, Nat.mul_zero] at hu; omega
          · exact h
        have hcu : c ≤ u := by omega
        rw [List.get?_append_right (by rw [hrowsnd]; simpa using hcu)]
        rw [hrowsnd, hrowfst]
        have hlen : ((List.range c).map fun u =>
            (StepDesc.cell i u (f i u), fillRow f i 0 (u + 1) C)).length = c := by
          simp
        rw [hlen]
        have hu2 : u - c < fuel * c := by
          rw [hmul] at hu
          omega
        rw [ih3 (u - c) hu2]
        have hdiv : i + 1 + (u - c) / c = i + u / c := by
          rw [Nat.div_eq_sub_div hc hcu]
          ring
        have hmod : (u - c) % c = u % c := (Nat.mod_eq_sub_mod hcu).symm
        have hshift : fillUpTo f c (i + 1) (u - c + 1) (fillRow f i 0 c C) =
            fillUpTo f c i (u + 1) C := by
          rw [fillUpTo_shift, show u - c + 1 + c = u + 1 from by omega]
        rw [hdiv, hmod, hshift]

theorem fillUpTo_base (f : ℕ → ℕ → ℚ) (c m : ℕ) :
    fillUpTo f c 0 m (fun _ _ => 0) =
      fun a b => if b < c ∧ a * c + b < m then f a b else 0 := by
  funext a b
  unfold fillUpTo
  rw [Nat.sub_zero]
  by_cases h : b < c ∧ a * c + b < m
  · rw [if_pos ⟨Nat.zero_le a, h.1, h.2⟩, if_pos h]
  · rw [if_neg (by rintro ⟨-, h1, h2⟩; exact h ⟨h1, h2⟩), if_neg h]

/-- Shape of any elementwise-engine log: the initial all-zeros snapshot, then
one step per cell in row-major order whose snapshot holds the computed value
in exactly the cells processed so far and zero in every remaining cell. -/
theorem elemwiseSteps_get (r c : ℕ) (f : ℕ → ℕ → ℚ) (done : StepDesc) :
    (elemwiseSteps r c f done).head? = some (StepDesc.initialZeros, fun _ _ => 0) ∧
    ∀ k, k < r * c → (elemwiseSteps r c f done).get? (k + 1) =
      some (StepDesc.cell (k / c) (k % c) (f (k / c) (k % c)),
            fun a b => if b < c ∧ a * c + b < k + 1 then f a b else 0) := by
  obtain ⟨h1, h2, h3⟩ := cellLoop_spec f c r 0 (fun _ _ => 0)
  refine ⟨rfl, fun k hk => ?_⟩
  show ((StepDesc.initialZeros, (fun _ _ => 0 : Ent)) ::
    ((cellLoop f c 0 r (fun _ _ => 0)).2 ++
      [(done, (cellLoop f c 0 r (fun _ _ => 0)).1)])).get? (k + 1) = _
  rw [List.get?_cons_succ, List.get?_append (by rw [h2]; exact hk), h3 k hk,
    fillUpTo_base, Nat.zero_add]

/-- C10: for `add_steps`, `sub_steps` and `multiply_steps` the initial step's
snapshot is the all-zeros matrix of the result shape (not either operand),
and the snapshot recorded with the `k`-th cell step contains the computed
result value in exactly the first `k` cells in row-major order and zero in
every remaining cell. -/
theorem c10_elemwise_snapshots (r n c : ℕ) (A B : Ent) :
    ((add_steps r c A B).head? = some (StepDesc.initialZeros, fun _ _ => 0) ∧
     (sub_steps r c A B).head? = some (StepDesc.initialZeros, fun _ _ => 0) ∧
     (multiply_steps r n c A B).head? = some (StepDesc.initialZeros, fun _ _ => 0)) ∧
    (∀ k, k < r * c → (add_steps r c A B).get? (k + 1) =
      some (StepDesc.cell (k / c) (k % c) (A (k / c) (k % c) + B (k / c) (k % c)),
            fun a b => if b < c ∧ a * c + b < k + 1 then A a b + B a b else 0)) ∧
    (∀ k, k < r * c → (sub_steps r c A B).get? (k + 1) =
      some (StepDesc.cell (k / c) (k % c) (A (k / c) (k % c) - B (k / c) (k % c)),
            fun a b => if b < c ∧ a * c + b < k + 1 then A a b - B a b else 0)) ∧
    (∀ k, k < r * c → (multiply_steps r n c A B).get? (k + 1) =
      some (StepDesc.cell (k / c) (k % c) (dotCell n A B (k / c) (k % c)),
            fun a b => if b < c ∧ a * c + b < k + 1 then dotCell n A B a b else 0)) := by
  refine ⟨⟨?_, ?_, ?_⟩, ?_, ?_, ?_⟩
  · exact (elemwiseSteps_get r c (fun i j => A i j + B i j) StepDesc.addDone).1
  · exact (elemwiseSteps_get r c (fun i j => A i j - B i j) StepDesc.subDone).1
  · exact (elemwiseSteps_get r c (dotCell n A B) StepDesc.mulDone).1
  · exact (elemwiseSteps_get r c (fun i j => A i j + B i j) StepDesc.addDone).2
  · exact (elemwiseSteps_get r c (fun i j => A i j - B i j) StepDesc.subDone).2
  · exact (elemwiseSteps_get r c (dotCell n A B) StepDesc.mulDone).2

/-- C10 witness: at `A = [[1,2],[3,4]]`, `B = [[5,6],[7,8]]`, the step after
the second processed cell. -/
theorem c10_elemwise_snapshots_witness :
    1 < 2 * 2 ∧
    (add_steps 2 2 (entOf [[1, 2], [3, 4]]) (entOf [[5, 6], [7, 8]])).get? 2 =
      some (StepDesc.cell (1 / 2) (1 % 2)
              (entOf [[1, 2], [3, 4]] (1 / 2) (1 % 2) + entOf [[5, 6], [7, 8]] (1 / 2) (1 % 2)),
            fun a b => if b < 2 ∧ a * 2 + b < 1 + 1 then
              entOf [[1, 2], [3, 4]] a b + entOf [[5, 6], [7, 8]] a b else 0) :=
  ⟨by decide,
   (c10_elemwise_snapshots 2 0 2 (entOf [[1, 2], [3, 4]]) (entOf [[5, 6], [7, 8]])).2.1
     1 (by decide)⟩

/-! ## Bridges between the row operations and Mathlib matrices -/

theorem toSq_rowSwap (M : Ent) (n a b : ℕ) (ha : a < n) (hb : b < n) :
    toSq (rowSwap M a b) n =
      (toSq M n).submatrix (Equiv.swap ⟨a, ha⟩ ⟨b, hb⟩) id := by
  ext i j
  show rowSwap M a b (i : ℕ) (j : ℕ) = M ((Equiv.swap (⟨a, ha⟩ : Fin n) ⟨b, hb⟩ i : Fin n) : ℕ) j
  unfold rowSwap
  rw [Equiv.swap_apply_def]
  by_cases h1 : (i : ℕ) = a
  · have e : i = (⟨a, ha⟩ : Fin n) := Fin.ext h1
    rw [if_pos h1, e, if_pos rfl]
  · have e : i ≠ (⟨a, ha⟩ : Fin n) := fun hh => h1 (by rw [hh])
    rw [if_neg h1, if_neg e]
    by_cases h2 : (i : ℕ) = b
    · have e2 : i = (⟨b, hb⟩ : Fin n) := Fin.ext h2
      rw [if_pos h2, e2, if_pos rfl]
    · have e2 : i ≠ (⟨b, hb⟩ : Fin n) := fun hh => h2 (by rw [hh])
      rw [if_neg h2, if_neg e2]

theorem det_toSq_rowSwap (M : Ent) (n a b : ℕ) (ha : a < n) (hb : b < n)
    (hab : a ≠ b) :
    (toSq (rowSwap M a b) n).det = -(toSq M n).det := by
  rw [toSq_rowSwap M n a b ha hb, Matrix.det_permute,
    Equiv.Perm.sign_swap (by simp [Fin.ext_iff, hab])]
  simp

theorem toSq_rowScale (M : Ent) (n r : ℕ) (hr : r < n) (f : ℚ) :
    toSq (rowScale M r f) n =
      (toSq M n).updateRow ⟨r, hr⟩ (f⁻¹ • ((toSq M n) ⟨r, hr⟩)) := by
  ext i j
  rw [Matrix.updateRow_apply]
  show rowScale M r f (i : ℕ) (j : ℕ) = _
  unfold rowScale
  by_cases h : (i : ℕ) = r
  · rw [if_pos h, if_pos (by rwa [Fin.ext_iff])]
    show M (i : ℕ) (j : ℕ) / f = f⁻¹ * M r (j : ℕ)
    rw [h, div_eq_mul_inv, mul_comm]
  · rw [if_neg h, if_neg (by rwa [Fin.ext_iff])]
    rfl

theorem det_toSq_rowScale (M : Ent) (n r : ℕ) (hr : r < n) (f : ℚ) :
    (toSq (rowScale M r f) n).det = f⁻¹ * (toSq M n).det := by
  rw [toSq_rowScale M n r hr f, Matrix.det_updateRow_smul, Matrix.updateRow_eq_self]

theorem toSq_rowCombine (M : Ent) (n i r : ℕ) (hi : i < n) (hr : r < n) (f : ℚ) :
    toSq (rowCombine M i r f) n =
      (toSq M n).updateRow ⟨i, hi⟩
        ((toSq M n) ⟨i, hi⟩ + (-f) • ((toSq M n) ⟨r, hr⟩)) := by
  ext a j
  rw [Matrix.updateRow_apply]
  show rowCombine M i r f (a : ℕ) (j : ℕ) = _
  unfold rowCombine
  by_cases h : (a : ℕ) = i
  · rw [if_pos h, if_pos (by rwa [Fin.ext_iff])]
    show M (a : ℕ) (j : ℕ) - f * M r (j : ℕ) = M i (j : ℕ) + -f * M r (j : ℕ)
    rw [h]
    ring
  · rw [if_neg h, if_neg (by rwa [Fin.ext_iff])]
    rfl

theorem det_toSq_rowCombine (M : Ent) (n i r : ℕ) (hi : i < n) (hr : r < n)
    (hir : i ≠ r) (f : ℚ) :
    (toSq (rowCombine M i r f) n).det = (toSq M n).det := by
  rw [toSq_rowCombine M n i r hi hr f,
    Matrix.det_updateRow_add_smul_self _ (by simp [Fin.ext_iff, hir]) (-f)]

/-! ## The cofactor reference equals the Mathlib determinant -/

theorem listSum_range (g : ℕ → ℚ) (n : ℕ) :
    ((List.range n).map g).sum = ∑ j in Finset.range n, g j := by
  induction n with
  | zero => simp
  | succ n ih => rw [List.range_succ, List.map_append, List.sum_append,
      Finset.sum_range_succ, ih]; simp

theorem minorE_toSq (A : Ent) (n j0 : ℕ) (h : j0 < n + 1) :
    toSq (minorE A j0) n =
      (toSq A (n + 1)).submatrix Fin.succ (Fin.succAbove ⟨j0, h⟩) := by
  ext i j
  show minorE A j0 (i : ℕ) (j : ℕ) = A (Fin.succ i : ℕ) ((Fin.succAbove ⟨j0, h⟩ j : Fin (n+1)) : ℕ)
  unfold minorE
  rw [Fin.succAbove]
  by_cases hj : (j : ℕ) < j0
  · rw [if_pos hj, if_pos (by simpa [Fin.lt_def] using hj)]
    rfl
  · rw [if_neg hj, if_neg (by simpa [Fin.lt_def] using hj)]
    rfl

theorem cofDet_eq_det (n : ℕ) : ∀ A : Ent, cofDet n A = (toSq A n).det := by
  induction n with
  | zero =>
    intro A
    rw [cofDet, Matrix.det_fin_zero]
  | succ n ih =>
    intro A
    rw [cofDet, Matrix.det_succ_row_zero, listSum_range,
      ← Fin.sum_univ_eq_sum_range
        (fun j => (-1 : ℚ) ^ j * A 0 j * cofDet n (minorE A j)) (n + 1)]
    refine Finset.sum_congr rfl fun j _ => ?_
    rw [ih (minorE A (j : ℕ)), minorE_toSq A n (j : ℕ) j.isLt]
    rfl

theorem foldl_mul_range (g : ℕ → ℚ) (n : ℕ) :
    (List.range n).foldl (fun a i => a * g i) 1 = ∏ i in Finset.range n, g i := by
  induction n with
  | zero => simp
  | succ n ih =>
    rw [List.range_succ, List.foldl_append, ih, Finset.prod_range_succ]
    rfl

theorem prodDiag_eq_prod (M : Ent) (n : ℕ) :
    prodDiag M n = ∏ i : Fin n, toSq M n i i := by
  show prodDiag M n = ∏ i : Fin n, M (i : ℕ) (i : ℕ)
  rw [Fin.prod_univ_eq_prod_range (fun i => M i i) n]
  exact foldl_mul_range (fun i => M i i) n

/-! ## Pivot-search facts -/

theorem findPivotAux_some (M : Ent) (c : ℕ) :
    ∀ (fuel i piv : ℕ), findPivotAux M c i fuel = some piv →
      i ≤ piv ∧ piv < i + fuel ∧ M piv c ≠ 0 := by
  intro fuel
  induction fuel with
  | zero => intro i piv h; exact absurd h (by rw [findPivotAux]; simp)
  | succ fuel ih =>
    intro i piv h
    rw [findPivotAux] at h
    by_cases hz : M i c ≠ 0
    · rw [if_pos hz] at h
      injection h with h
      subst h
      exact ⟨le_refl _, by omega, hz⟩
    · rw [if_neg hz] at h
      obtain ⟨h1, h2, h3⟩ := ih (i + 1) piv h
      exact ⟨by omega, by omega, h3⟩

theorem findPivotAux_none (M : Ent) (c : ℕ) :
    ∀ (fuel i : ℕ), findPivotAux M c i fuel = none →
      ∀ k, i ≤ k → k < i + fuel → M k c = 0 := by
  intro fuel
  induction fuel with
  | zero => intro i h k hk1 hk2; omega
  | succ fuel ih =>
    intro i h k hk1 hk2
    rw [findPivotAux] at h
    by_cases hz : M i c ≠ 0
    · rw [if_pos hz] at h; exact absurd h (by simp)
    · rw [if_neg hz] at h
      by_cases hik : k = i
      · subst hik; exact not_not.mp hz
      · exact ih (i + 1) h k (by omega) (by omega)

theorem findPivot_some (M : Ent) (c r rows piv : ℕ)
    (h : findPivot M c r rows = some piv) :
    r ≤ piv ∧ piv < rows ∧ M piv c ≠ 0 := by
  obtain ⟨h1, h2, h3⟩ := findPivotAux_some M c (rows - r) r piv h
  exact ⟨h1, by omega, h3⟩

theorem findPivot_none (M : Ent) (c r rows : ℕ)
    (h : findPivot M c r rows = none) :
    ∀ k, r ≤ k → k < rows → M k c = 0 := by
  intro k hk1 hk2
  exact findPivotAux_none M c (rows - r) r h k hk1 (by omega)

theorem findPivot_eq_self (M : Ent) (c r rows : ℕ) (hr : r < rows)
    (hz : M r c ≠ 0) : findPivot M c r rows = some r := by
  unfold findPivot
  have : rows - r = (rows - r - 1) + 1 := by omega
  rw [this, findPivotAux, if_pos hz]

/-! ## Triangular-mode elimination: value tracking and determinant -/

theorem elimBelowAux_spec (n r c : ℕ) (hrn : r < n) :
    ∀ (fuel i : ℕ) (M : Ent), r < i → i + fuel ≤ n →
      (toSq (elimBelowAux r c i fuel M).1 n).det = (toSq M n).det ∧
      (∀ a j, a < i ∨ i + fuel ≤ a → (elimBelowAux r c i fuel M).1 a j = M a j) ∧
      (M r c ≠ 0 → ∀ a, i ≤ a → a < i + fuel → (elimBelowAux r c i fuel M).1 a c = 0) ∧
      (∀ a j, M r j = 0 → (elimBelowAux r c i fuel M).1 a j = M a j) := by
  intro fuel
  induction fuel with
  | zero =>
    intro i M hi hin
    rw [elimBelowAux]
    exact ⟨rfl, fun a j h => rfl, fun h a h1 h2 => by omega, fun a j h => rfl⟩
  | succ fuel ih =>
    intro i M hi hin
    rw [elimBelowAux]
    by_cases hz : M i c ≠ 0
    · rw [if_pos hz]
      set M2 := rowCombine M i r (M i c / M r c) with hM2
      have hrow_r : ∀ j, M2 r j = M r j := by
        intro j
        rw [hM2]
        unfold rowCombine
        rw [if_neg (by omega)]
      obtain ⟨ihdet, ihfix, ihzero, ihsame⟩ := ih (i + 1) M2 (by omega) (by omega)
      have hM2fix : ∀ a j, a ≠ i → M2 a j = M a j := by
        intro a j ha
        rw [hM2]
        unfold rowCombine
        rw [if_neg ha]
      refine ⟨?_, ?_, ?_, ?_⟩
      · rw [ihdet, hM2]
        exact det_toSq_rowCombine M n i r (by omega) hrn (by omega) _
      · intro a j ha
        rw [ihfix a j (by omega), hM2fix a j (by omega)]
      · intro hrc a ha1 ha2
        by_cases hai : a = i
        · subst hai
          rw [ihfix a c (by omega), hM2]
          unfold rowCombine
          rw [if_pos rfl, div_mul_cancel₀ _ hrc, sub_self]
        · exact (by rw [ihzero (by rwa [hrow_r]) a (by omega) (by omega)] :
            (elimBelowAux r c (i+1) fuel M2).1 a c = 0)
      · intro a j hj
        rw [ihsame a j (by rwa [hrow_r]), hM2]
        unfold rowCombine
        by_cases hai : a = i
        · rw [if_pos hai, hj, mul_zero, sub_zero]
        · rw [if_neg hai]
    · rw [if_neg hz]
      obtain ⟨ihdet, ihfix, ihzero, ihsame⟩ := ih (i + 1) M (by omega) (by omega)
      refine ⟨ihdet, ?_, ?_, ihsame⟩
      · intro a j ha
        exact ihfix a j (by omega)
      · intro hrc a ha1 ha2
        by_cases hai : a = i
        · subst hai
          rw [ihfix a c (by omega)]
          exact not_not.mp hz
        · exact ihzero hrc a (by omega) (by omega)

/-- Master invariant of the triangular sweep: the sign-adjusted determinant
of the working matrix is preserved, and the final matrix is upper triangular.
`c` is the current column, `r` the pivot row, `fuel` the remaining columns;
the matrix is square of size `n`. -/
theorem triSweep_det (n : ℕ) :
    ∀ (fuel c r swaps : ℕ) (M : Ent),
      r ≤ c → c + fuel = n →
      (∀ i, r ≤ i → i < n → ∀ j, j < c → M i j = 0) →
      (∀ i, i < r → ∀ j, j < i → M i j = 0) →
      ((-1 : ℚ) ^ (triSweep n fuel c r swaps M).2.1 *
          (toSq (triSweep n fuel c r swaps M).1 n).det =
        (-1 : ℚ) ^ swaps * (toSq M n).det) ∧
      (∀ i j, i < n → j < i → (triSweep n fuel c r swaps M).1 i j = 0) := by
  intro fuel
  induction fuel with
  | zero =>
    intro c r swaps M hrc hcn h2 h3
    rw [triSweep]
    refine ⟨rfl, fun i j hi hj => ?_⟩
    by_cases hir : i < r
    · exact h3 i hir j hj
    · exact h2 i (by omega) hi j (by omega)
  | succ fuel ih =>
    intro c r swaps M hrc hcn h2 h3
    by_cases hbreak : n ≤ r
    · rw [triSweep, if_pos hbreak]
      refine ⟨rfl, fun i j hi hj => h3 i (by omega) j hj⟩
    · rw [triSweep, if_neg hbreak]
      split
      next hfp =>
        have hz := findPivot_none M c r n hfp
        have h2' : ∀ i, r ≤ i → i < n → ∀ j, j < c + 1 → M i j = 0 := by
          intro i hi1 hi2 j hj
          by_cases hjc : j = c
          · subst hjc; exact hz i hi1 hi2
          · exact h2 i hi1 hi2 j (by omega)
        exact ih (c + 1) r swaps M (by omega) (by omega) h2' h3
      next piv hfp =>
        obtain ⟨hp1, hp2, hp3⟩ := findPivot_some M c r n piv hfp
        have hrn : r < n := by omega
        -- the matrix and swap count after the (possible) swap
        have key : ∀ (M1 : Ent) (swaps1 : ℕ),
            ((-1 : ℚ) ^ swaps1 * (toSq M1 n).det = (-1 : ℚ) ^ swaps * (toSq M n).det) →
            (∀ i, r ≤ i → i < n → ∀ j, j < c → M1 i j = 0) →
            (∀ i, i < r → ∀ j, j < i → M1 i j = 0) →
            M1 r c ≠ 0 →
            ((-1 : ℚ) ^ (triSweep n fuel (c + 1) (r + 1) swaps1
                (elimBelowAux r c (r + 1) (n - (r + 1)) M1).1).2.1 *
              (toSq (triSweep n fuel (c + 1) (r + 1) swaps1
                (elimBelowAux r c (r + 1) (n - (r + 1)) M1).1).1 n).det =
              (-1 : ℚ) ^ swaps * (toSq M n).det) ∧
            (∀ i j, i < n → j < i →
              (triSweep n fuel (c + 1) (r + 1) swaps1
                (elimBelowAux r c (r + 1) (n - (r + 1)) M1).1).1 i j = 0) := by
          intro M1 swaps1 ha1 ha2 ha3 ha4
          obtain ⟨b1, b2, b3, b4⟩ :=
            elimBelowAux_spec n r c hrn (n - (r + 1)) (r + 1) M1 (by omega) (by omega)
          set E := (elimBelowAux r c (r + 1) (n - (r + 1)) M1).1 with hE
          have inv2 : ∀ i, r + 1 ≤ i → i < n → ∀ j, j < c + 1 → E i j = 0 := by
            intro i hi1 hi2 j hj
            by_cases hjc : j = c
            · subst hjc
              exact b3 ha4 i hi1 (by omega)
            · rw [b4 i j (ha2 r (le_refl r) hrn j (by omega))]
              exact ha2 i (by omega) hi2 j (by omega)
          have inv3 : ∀ i, i < r + 1 → ∀ j, j < i → E i j = 0 := by
            intro i hi j hj
            rw [b2 i j (Or.inl (by omega))]
            by_cases hir : i < r
            · exact ha3 i hir j hj
            · have hir' : i = r := by omega
              subst hir'
              exact ha2 i (le_refl i) hrn j (by omega)
          obtain ⟨ih1, ih2⟩ := ih (c + 1) (r + 1) swaps1 E (by omega) (by omega) inv2 inv3
          refine ⟨?_, ih2⟩
          rw [ih1, b1, ha1]
        split
        next hpr =>
          have hswap : ((-1 : ℚ) ^ (swaps + 1) * (toSq (rowSwap M piv r) n).det =
              (-1 : ℚ) ^ swaps * (toSq M n).det) := by
            rw [det_toSq_rowSwap M n piv r hp2 hrn hpr, pow_succ]
            ring
          have ha2 : ∀ i, r ≤ i → i < n → ∀ j, j < c → rowSwap M piv r i j = 0 := by
            intro i hi1 hi2 j hj
            unfold rowSwap
            by_cases e1 : i = piv
            · rw [if_pos e1]; exact h2 r (le_refl r) hrn j hj
            · rw [if_neg e1]
              by_cases e2 : i = r
              · rw [if_pos e2]; exact h2 piv hp1 hp2 j hj
              · rw [if_neg e2]; exact h2 i hi1 hi2 j hj
          have ha3 : ∀ i, i < r → ∀ j, j < i → rowSwap M piv r i j = 0 := by
            intro i hi j hj
            unfold rowSwap
            rw [if_neg (by omega), if_neg (by omega)]
            exact h3 i hi j hj
          have ha4 : rowSwap M piv r r c ≠ 0 := by
            unfold rowSwap
            rw [if_neg (by omega), if_pos rfl]
            exact hp3
          exact key (rowSwap M piv r) (swaps + 1) hswap ha2 ha3 ha4
        next hpr =>
          have hpr' : piv = r := by omega
          subst hpr'
          exact key M swaps rfl h2 h3 hp3

/-- C1: for every square matrix `A` (of any size `n`), the final value
reported by `determinant_steps` equals the product of the diagonal entries of
the triangularized matrix times `(-1)^swaps`, and this value equals the
determinant computed by the independent cofactor-expansion reference
`cofDet`. -/
theorem c1_determinant_correct (n : ℕ) (A : Ent) :
    (determinant_steps n n A).getLast? =
      some (StepDesc.detResult
              (detValue (triSweep n n 0 0 0 A).1 n (triSweep n n 0 0 0 A).2.1),
            (triSweep n n 0 0 0 A).1) ∧
    detValue (triSweep n n 0 0 0 A).1 n (triSweep n n 0 0 0 A).2.1 =
      (-1 : ℚ) ^ (triSweep n n 0 0 0 A).2.1 * prodDiag (triSweep n n 0 0 0 A).1 n ∧
    detValue (triSweep n n 0 0 0 A).1 n (triSweep n n 0 0 0 A).2.1 = cofDet n A := by
  obtain ⟨hdet, htri⟩ := triSweep_det n n 0 0 0 A (le_refl 0) (by omega)
    (fun i h1 h2 j hj => by omega) (fun i hi j hj => by omega)
  have hsign : ∀ s : ℕ, (if s % 2 = 1 then -(prodDiag (triSweep n n 0 0 0 A).1 n)
      else prodDiag (triSweep n n 0 0 0 A).1 n) =
      (-1 : ℚ) ^ s * prodDiag (triSweep n n 0 0 0 A).1 n := by
    intro s
    by_cases hs : s % 2 = 1
    · rw [if_pos hs, Odd.neg_one_pow (Nat.odd_iff.mpr hs)]
      ring
    · rw [if_neg hs, Even.neg_one_pow (Nat.even_iff.mpr (by omega))]
      ring
  have hvalue : detValue (triSweep n n 0 0 0 A).1 n (triSweep n n 0 0 0 A).2.1 =
      (-1 : ℚ) ^ (triSweep n n 0 0 0 A).2.1 * prodDiag (triSweep n n 0 0 0 A).1 n := by
    unfold detValue
    exact hsign _
  refine ⟨?_, hvalue, ?_⟩
  · rw [determinant_steps, if_neg (by simp)]
    show (((StepDesc.initial, A) :: (triSweep n n 0 0 0 A).2.2) ++
      [(StepDesc.detResult _, (triSweep n n 0 0 0 A).1)]).getLast? = _
    exact List.getLast?_concat _
  · have hupper : (toSq (triSweep n n 0 0 0 A).1 n).BlockTriangular id := by
      intro i j hij
      exact htri (i : ℕ) (j : ℕ) i.isLt hij
    rw [pow_zero, one_mul] at hdet
    rw [hvalue, prodDiag_eq_prod, ← Matrix.det_of_upperTriangular hupper,
      cofDet_eq_det, ← hdet]

/-! ## RREF-mode elimination: value tracking, determinant, and the
augmented-matrix link invariant -/

/-- The invariant tying the two blocks of the augmented matrix `[A | I]`
during `inverse_steps`: at every instant the left block equals the right
block times `A` (each row operation acts linearly on whole rows). -/
def LinkInv (n : ℕ) (A M : Ent) : Prop :=
  ∀ i j, i < n → j < n → M i j = ∑ k in Finset.range n, M i (n + k) * A k j

theorem linkInv_rowCombine (n : ℕ) (A M : Ent) (h : LinkInv n A M) (a r : ℕ)
    (hr : r < n) (f : ℚ) : LinkInv n A (rowCombine M a r f) := by
  intro i j hi hj
  unfold rowCombine
  by_cases hia : i = a
  · simp only [if_pos hia]
    have : ∀ k, k ∈ Finset.range n →
        (M i (n + k) - f * M r (n + k)) * A k j =
          M i (n + k) * A k j - f * (M r (n + k) * A k j) := by
      intro k _; ring
    rw [Finset.sum_congr rfl this, Finset.sum_sub_distrib, ← Finset.mul_sum,
      ← h i j hi hj, ← h r j hr hj]
  · simp only [if_neg hia]
    exact h i j hi hj

theorem linkInv_rowScale (n : ℕ) (A M : Ent) (h : LinkInv n A M) (r : ℕ)
    (hr : r < n) (f : ℚ) : LinkInv n A (rowScale M r f) := by
  intro i j hi hj
  unfold rowScale
  by_cases hir : i = r
  · simp only [if_pos hir]
    have : ∀ k, k ∈ Finset.range n →
        M i (n + k) / f * A k j = M i (n + k) * A k j / f := by
      intro k _; ring
    rw [Finset.sum_congr rfl this, ← Finset.sum_div, ← h i j hi hj]
  · simp only [if_neg hir]
    exact h i j hi hj

theorem linkInv_rowSwap (n : ℕ) (A M : Ent) (h : LinkInv n A M) (a b : ℕ)
    (ha : a < n) (hb : b < n) : LinkInv n A (rowSwap M a b) := by
  intro i j hi hj
  unfold rowSwap
  by_cases h1 : i = a
  · simp only [if_pos h1]
    exact h b j hb hj
  · simp only [if_neg h1]
    by_cases h2 : i = b
    · simp only [if_pos h2]
      exact h a j ha hj
    · simp only [if_neg h2]
      exact h i j hi hj

theorem linkInv_elimAllAux (n : ℕ) (A : Ent) (r c : ℕ) (hr : r < n) :
    ∀ (fuel i : ℕ) (M : Ent), LinkInv n A M →
      LinkInv n A (elimAllAux r c i fuel M).1 := by
  intro fuel
  induction fuel with
  | zero => intro i M h; rw [elimAllAux]; exact h
  | succ fuel ih =>
    intro i M h
    rw [elimAllAux]
    by_cases hg : i ≠ r ∧ M i c ≠ 0
    · rw [if_pos hg]
      exact ih (i + 1) _ (linkInv_rowCombine n A M h i r hr (M i c))
    · rw [if_neg hg]
      exact ih (i + 1) M h

/-- Value tracking through the RREF-mode elimination loop
(`for i in range(rows): if i != r and M[i,c] != 0: …`). -/
theorem elimAllAux_spec (n r c : ℕ) (hrn : r < n) :
    ∀ (fuel i : ℕ) (M : Ent), i + fuel ≤ n →
      (toSq (elimAllAux r c i fuel M).1 n).det = (toSq M n).det ∧
      (∀ j, (elimAllAux r c i fuel M).1 r j = M r j) ∧
      (M r c = 1 → ∀ a, i ≤ a → a < i + fuel → a ≠ r →
        (elimAllAux r c i fuel M).1 a c = 0) ∧
      (∀ a j, M r j = 0 → (elimAllAux r c i fuel M).1 a j = M a j) ∧
      (∀ a j, a < i ∨ i + fuel ≤ a → (elimAllAux r c i fuel M).1 a j = M a j) := by
  intro fuel
  induction fuel with
  | zero =>
    intro i M hin
    rw [elimAllAux]
    exact ⟨rfl, fun j => rfl, fun h a h1 h2 h3 => by omega, fun a j h => rfl,
      fun a j h => rfl⟩
  | succ fuel ih =>
    intro i M hin
    rw [elimAllAux]
    by_cases hg : i ≠ r ∧ M i c ≠ 0
    · rw [if_pos hg]
      set M2 := rowCombine M i r (M i c) with hM2
      have hrow_r : ∀ j, M2 r j = M r j := by
        intro j
        rw [hM2]
        unfold rowCombine
        rw [if_neg (Ne.symm hg.1)]
      have hM2fix : ∀ a j, a ≠ i → M2 a j = M a j := by
        intro a j ha
        rw [hM2]
        unfold rowCombine
        rw [if_neg ha]
      obtain ⟨ihdet, ihr, ihzero, ihsame, ihfix⟩ := ih (i + 1) M2 (by omega)
      refine ⟨?_, ?_, ?_, ?_, ?_⟩
      · rw [ihdet, hM2]
        exact det_toSq_rowCombine M n i r (by omega) hrn hg.1 _
      · intro j
        rw [ihr j, hrow_r j]
      · intro hrc a ha1 ha2 har
        by_cases hai : a = i
        · subst hai
          rw [ihfix a c (by omega), hM2]
          unfold rowCombine
          rw [if_pos rfl, hrc, mul_one, sub_self]
        · exact (by rw [ihzero (by rwa [hrow_r]) a (by omega) (by omega) har] :
            (elimAllAux r c (i + 1) fuel M2).1 a c = 0)
      · intro a j hj
        rw [ihsame a j (by rwa [hrow_r]), hM2]
        unfold rowCombine
        by_cases hai : a = i
        · rw [if_pos hai, hj, mul_zero, sub_zero]
        · rw [if_neg hai]
      · intro a j ha
        rw [ihfix a j (by omega), hM2fix a j (by omega)]
    · rw [if_neg hg]
      obtain ⟨ihdet, ihr, ihzero, ihsame, ihfix⟩ := ih (i + 1) M (by omega)
      refine ⟨ihdet, ihr, ?_, ihsame, ?_⟩
      · intro hrc a ha1 ha2 har
        by_cases hai : a = i
        · subst hai
          rw [ihfix a c (by omega)]
          by_cases hz : M a c = 0
          · exact hz
          · exact absurd ⟨har, hz⟩ hg
        · exact ihzero hrc a (by omega) (by omega) har
      · intro a j ha
        exact ihfix a j (by omega)

/-- If the first `c` columns are the identity columns and column `c` has no
nonzero entry in rows `c..n-1`, the matrix is singular: column `c` is a
linear combination of the previous columns. -/
theorem det_eq_zero_no_pivot (n c : ℕ) (hc : c < n) (M : Ent)
    (hid : ∀ j, j < c → ∀ i, i < n → M i j = if i = j then 1 else 0)
    (hz : ∀ i, c ≤ i → i < n → M i c = 0) :
    (toSq M n).det = 0 := by
  rw [← Matrix.exists_mulVec_eq_zero_iff]
  refine ⟨(fun j : Fin n => if (j : ℕ) = c then (1 : ℚ) else 0) +
    (fun j : Fin n => if (j : ℕ) < c then -(M (j : ℕ) c) else 0), ?_, ?_⟩
  · intro hv0
    have h0 := congrFun hv0 ⟨c, hc⟩
    simp at h0
  · rw [Matrix.mulVec_add]
    funext i
    have h1 : (toSq M n).mulVec (fun j : Fin n => if (j : ℕ) = c then (1 : ℚ) else 0) i =
        M (i : ℕ) c := by
      show (∑ j : Fin n, toSq M n i j * (if (j : ℕ) = c then (1 : ℚ) else 0)) = M (i : ℕ) c
      have hterm : ∀ j : Fin n,
          toSq M n i j * (if (j : ℕ) = c then (1 : ℚ) else 0) =
            if j = ⟨c, hc⟩ then M (i : ℕ) c else 0 := by
        intro j
        by_cases hj : j = ⟨c, hc⟩
        · rw [if_pos hj, if_pos (by rw [hj]), mul_one]
          show M (i : ℕ) (j : ℕ) = M (i : ℕ) c
          rw [hj]
        · rw [if_neg hj, if_neg (fun hh => hj (Fin.ext hh)), mul_zero]
      rw [Finset.sum_congr rfl fun j _ => hterm j, Finset.sum_ite_eq' Finset.univ
        (⟨c, hc⟩ : Fin n) (fun _ => M (i : ℕ) c), if_pos (Finset.mem_univ _)]
    have h2 : (toSq M n).mulVec
        (fun j : Fin n => if (j : ℕ) < c then -(M (j : ℕ) c) else 0) i =
        if (i : ℕ) < c then -(M (i : ℕ) c) else 0 := by
      show (∑ j : Fin n, toSq M n i j * (if (j : ℕ) < c then -(M (j : ℕ) c) else 0)) = _
      by_cases hi : (i : ℕ) < c
      · rw [if_pos hi]
        have hterm : ∀ j : Fin n,
            toSq M n i j * (if (j : ℕ) < c then -(M (j : ℕ) c) else 0) =
              if j = i then -(M (i : ℕ) c) else 0 := by
          intro j
          by_cases hj : j = i
          · subst hj
            rw [if_pos hi, if_pos rfl]
            show M (j : ℕ) (j : ℕ) * -(M (j : ℕ) c) = -(M (j : ℕ) c)
            rw [hid (j : ℕ) hi (j : ℕ) j.isLt, if_pos rfl, one_mul]
          · rw [if_neg hj]
            by_cases hjc : (j : ℕ) < c
            · rw [if_pos hjc]
              show M (i : ℕ) (j : ℕ) * -(M (j : ℕ) c) = 0
              rw [hid (j : ℕ) hjc (i : ℕ) i.isLt,
                if_neg (fun hh => hj (Fin.ext hh.symm)), zero_mul]
            · rw [if_neg hjc, mul_zero]
        rw [Finset.sum_congr rfl fun j _ => hterm j, Finset.sum_ite_eq' Finset.univ i
          (fun _ => -(M (i : ℕ) c)), if_pos (Finset.mem_univ _)]
      · rw [if_neg hi]
        refine Finset.sum_eq_zero fun j _ => ?_
        by_cases hjc : (j : ℕ) < c
        · rw [if_pos hjc]
          show M (i : ℕ) (j : ℕ) * -(M (j : ℕ) c) = 0
          rw [hid (j : ℕ) hjc (i : ℕ) i.isLt, if_neg (by omega), zero_mul]
        · rw [if_neg hjc, mul_zero]
    show (toSq M n).mulVec _ i + (toSq M n).mulVec _ i = (0 : Fin n → ℚ) i
    rw [h1, h2]
    by_cases hi : (i : ℕ) < c
    · rw [if_pos hi]
      show M (i : ℕ) c + -(M (i : ℕ) c) = 0
      ring
    · rw [if_neg hi, hz (i : ℕ) (by omega) i.isLt]
      show (0 : ℚ) + 0 = 0
      ring

/-- Master invariant of the RREF sweep on a nonsingular working matrix: the
link invariant is preserved and every processed column is the corresponding
identity column; since the left block stays nonsingular a pivot is found in
every column, so after all `n` columns the left block is the identity. -/
theorem rrefSweep_inverse (n : ℕ) (A : Ent) :
    ∀ (fuel c : ℕ) (M : Ent),
      c + fuel = n →
      LinkInv n A M →
      (toSq M n).det ≠ 0 →
      (∀ j, j < c → ∀ i, i < n → M i j = if i = j then 1 else 0) →
      LinkInv n A (rrefSweep n fuel c c M).1 ∧
      ∀ j, j < n → ∀ i, i < n → (rrefSweep n fuel c c M).1 i j =
        if i = j then 1 else 0 := by
  intro fuel
  induction fuel with
  | zero =>
    intro c M hcn hlink hdet hid
    rw [rrefSweep]
    exact ⟨hlink, fun j hj => hid j (by omega)⟩
  | succ fuel ih =>
    intro c M hcn hlink hdet hid
    have hcnlt : c < n := by omega
    rw [rrefSweep, if_neg (by omega)]
    split
    next hfp =>
      exact absurd (det_eq_zero_no_pivot n c hcnlt M hid
        (findPivot_none M c c n hfp)) hdet
    next piv hfp =>
      obtain ⟨hp1, hp2, hp3⟩ := findPivot_some M c c n piv hfp
      have key2 : ∀ M2 : Ent, LinkInv n A M2 → (toSq M2 n).det ≠ 0 →
          (∀ j, j < c → ∀ i, i < n → M2 i j = if i = j then 1 else 0) →
          M2 c c = 1 →
          LinkInv n A (rrefSweep n fuel (c + 1) (c + 1) (elimAllAux c c 0 n M2).1).1 ∧
          ∀ j, j < n → ∀ i, i < n →
            (rrefSweep n fuel (c + 1) (c + 1) (elimAllAux c c 0 n M2).1).1 i j =
              if i = j then 1 else 0 := by
        intro M2 hlink2 hdet2 hid2 hpc
        obtain ⟨e1, e2, e3, e4, e5⟩ := elimAllAux_spec n c c hcnlt n 0 M2 (by omega)
        have hidE : ∀ j, j < c + 1 → ∀ i, i < n →
            (elimAllAux c c 0 n M2).1 i j = if i = j then 1 else 0 := by
          intro j hj i hi
          by_cases hjc : j = c
          · subst hjc
            by_cases hij : i = j
            · subst hij
              rw [e2 i, hpc, if_pos rfl]
            · rw [e3 hpc i (by omega) (by omega) hij, if_neg hij]
          · rw [e4 i j (by rw [hid2 j (by omega) c hcnlt]; rw [if_neg (by omega)]),
              hid2 j (by omega) i hi]
        exact ih (c + 1) (elimAllAux c c 0 n M2).1 (by omega)
          (linkInv_elimAllAux n A c c hcnlt n 0 M2 hlink2)
          (by rw [e1]; exact hdet2) hidE
      have key1 : ∀ M1 : Ent, LinkInv n A M1 → (toSq M1 n).det ≠ 0 →
          (∀ j, j < c → ∀ i, i < n → M1 i j = if i = j then 1 else 0) →
          M1 c c ≠ 0 →
          LinkInv n A (rrefSweep n fuel (c + 1) (c + 1) (elimAllAux c c 0 n
            (if M1 c c ≠ 1 then
              ((rowScale M1 c (M1 c c) : Ent),
               ([(StepDesc.scale c (M1 c c), (rowScale M1 c (M1 c c) : Ent))] : List Step))
             else (M1, ([] : List Step))).1).1).1 ∧
          ∀ j, j < n → ∀ i, i < n →
            (rrefSweep n fuel (c + 1) (c + 1) (elimAllAux c c 0 n
              (if M1 c c ≠ 1 then
                ((rowScale M1 c (M1 c c) : Ent),
                 ([(StepDesc.scale c (M1 c c), (rowScale M1 c (M1 c c) : Ent))] : List Step))
               else (M1, ([] : List Step))).1).1).1 i j =
              if i = j then 1 else 0 := by
        intro M1 hlink1 hdet1 hid1 hpiv1
        split
        next hsc =>
          refine key2 (rowScale M1 c (M1 c c))
            (linkInv_rowScale n A M1 hlink1 c hcnlt (M1 c c)) ?_ ?_ ?_
          · rw [det_toSq_rowScale M1 n c hcnlt (M1 c c)]
            exact mul_ne_zero (inv_ne_zero hpiv1) hdet1
          · intro j hj i hi
            unfold rowScale
            by_cases hic : i = c
            · rw [if_pos hic, hid1 j hj i hi, if_neg (by omega), zero_div]
            · rw [if_neg hic]
              exact hid1 j hj i hi
          · show rowScale M1 c (M1 c c) c c = 1
            unfold rowScale
            rw [if_pos rfl, div_self hpiv1]
        next hsc =>
          exact key2 M1 hlink1 hdet1 hid1 (not_not.mp hsc)
      split
      next hpr =>
        refine key1 (rowSwap M piv c) (linkInv_rowSwap n A M hlink piv c hp2 hcnlt)
          ?_ ?_ ?_
        · rw [det_toSq_rowSwap M n piv c hp2 hcnlt hpr]
          exact neg_ne_zero.mpr hdet
        · intro j hj i hi
          unfold rowSwap
          by_cases e1 : i = piv
          · rw [if_pos e1, hid j hj c hcnlt, if_neg (by omega), if_neg (by omega)]
          · rw [if_neg e1]
            by_cases e2 : i = c
            · rw [if_pos e2, hid j hj piv hp2, if_neg (by omega), if_neg (by omega)]
            · rw [if_neg e2]
              exact hid j hj i hi
        · show rowSwap M piv c c c ≠ 0
          unfold rowSwap
          rw [if_neg (by omega), if_pos rfl]
          exact hp3
      next hpr =>
        have hpr' : piv = c := by omega
        subst hpr'
        exact key1 M hlink hdet hid hp3

theorem linkInv_augment (n : ℕ) (A : Ent) : LinkInv n A (augment A n) := by
  intro i j hi hj
  unfold augment
  rw [if_pos hj]
  have hterm : ∀ k, k ∈ Finset.range n →
      (if n + k < n then A i (n + k) else if n + k = n + i then 1 else 0) * A k j =
        if k = i then A k j else 0 := by
    intro k _
    rw [if_neg (by omega)]
    by_cases hki : k = i
    · rw [if_pos (by omega), if_pos hki, one_mul]
    · rw [if_neg (by omega), if_neg hki, zero_mul]
  rw [Finset.sum_congr rfl hterm,
    Finset.sum_ite_eq' (Finset.range n) i (fun k => A k j),
    if_pos (Finset.mem_range.mpr hi)]

theorem toSq_augment (A : Ent) (n : ℕ) : toSq (augment A n) n = toSq A n := by
  ext i j
  show augment A n (i : ℕ) (j : ℕ) = A (i : ℕ) (j : ℕ)
  unfold augment
  rw [if_pos j.isLt]

/-- From the link invariant and an identity left block, the right block is a
left inverse of `A`. -/
theorem link_id_mul (n : ℕ) (A Mf : Ent)
    (hlink : LinkInv n A Mf)
    (hid : ∀ i j, i < n → j < n → Mf i j = if i = j then 1 else 0) :
    Matrix.of (fun i j : Fin n => Mf (i : ℕ) (n + (j : ℕ))) * toSq A n = 1 := by
  ext i j
  rw [Matrix.mul_apply]
  show (∑ k : Fin n, Mf (i : ℕ) (n + (k : ℕ)) * A (k : ℕ) (j : ℕ)) = (1 : Matrix (Fin n) (Fin n) ℚ) i j
  rw [Fin.sum_univ_eq_sum_range (fun k => Mf (i : ℕ) (n + k) * A k (j : ℕ)) n,
    ← hlink (i : ℕ) (j : ℕ) i.isLt j.isLt, hid (i : ℕ) (j : ℕ) i.isLt j.isLt,
    Matrix.one_apply]
  by_cases hij : i = j
  · rw [if_pos (by rw [hij]), if_pos hij]
  · rw [if_neg (fun hh => hij (Fin.ext hh)), if_neg hij]

theorem leftIsId_true_iff (M : Ent) (n : ℕ) :
    leftIsId M n = true ↔
      ∀ i j, i < n → j < n → M i j = if i = j then 1 else 0 := by
  unfold leftIsId
  rw [List.all_eq_true]
  constructor
  · intro h i j hi hj
    have h2 := h i (List.mem_range.mpr hi)
    rw [List.all_eq_true] at h2
    exact of_decide_eq_true (h2 j (List.mem_range.mpr hj))
  · intro h i hi
    rw [List.all_eq_true]
    intro j hj
    exact decide_eq_true (h i j (List.mem_range.mp hi) (List.mem_range.mp hj))

theorem cofDet_ne_zero_of_left_id (n : ℕ) (A Mf : Ent)
    (hlink : LinkInv n A Mf)
    (hid : ∀ i j, i < n → j < n → Mf i j = if i = j then 1 else 0) :
    cofDet n A ≠ 0 := by
  have h1 := link_id_mul n A Mf hlink hid
  have h2 : (Matrix.of (fun i j : Fin n => Mf (i : ℕ) (n + (j : ℕ)))).det *
      (toSq A n).det = 1 := by
    rw [← Matrix.det_mul, h1, Matrix.det_one]
  rw [cofDet_eq_det]
  intro h0
  rw [h0, mul_zero] at h2
  exact zero_ne_one h2

/-- The link invariant is preserved by the whole RREF sweep, on any input
(pivots found or not, square or augmented). -/
theorem rrefSweep_link (n : ℕ) (A : Ent) :
    ∀ (fuel c r : ℕ) (M : Ent), LinkInv n A M →
      LinkInv n A (rrefSweep n fuel c r M).1 := by
  intro fuel
  induction fuel with
  | zero => intro c r M h; rw [rrefSweep]; exact h
  | succ fuel ih =>
    intro c r M h
    by_cases hbreak : n ≤ r
    · rw [rrefSweep, if_pos hbreak]; exact h
    · rw [rrefSweep, if_neg hbreak]
      split
      next hfp => exact ih (c + 1) r M h
      next piv hfp =>
        obtain ⟨hp1, hp2, hp3⟩ := findPivot_some M c r n piv hfp
        have hrn : r < n := by omega
        have hM2 : LinkInv n A (if (if piv ≠ r then
            ((rowSwap M piv r : Ent),
             ([(StepDesc.swap piv r, (rowSwap M piv r : Ent))] : List Step))
          else (M, ([] : List Step))).1 r c ≠ 1 then
            ((rowScale (if piv ≠ r then
                ((rowSwap M piv r : Ent),
                 ([(StepDesc.swap piv r, (rowSwap M piv r : Ent))] : List Step))
              else (M, ([] : List Step))).1 r ((if piv ≠ r then
                ((rowSwap M piv r : Ent),
                 ([(StepDesc.swap piv r, (rowSwap M piv r : Ent))] : List Step))
              else (M, ([] : List Step))).1 r c) : Ent),
             ([(StepDesc.scale r ((if piv ≠ r then
                ((rowSwap M piv r : Ent),
                 ([(StepDesc.swap piv r, (rowSwap M piv r : Ent))] : List Step))
              else (M, ([] : List Step))).1 r c),
               (rowScale (if piv ≠ r then
                ((rowSwap M piv r : Ent),
                 ([(StepDesc.swap piv r, (rowSwap M piv r : Ent))] : List Step))
              else (M, ([] : List Step))).1 r ((if piv ≠ r then
                ((rowSwap M piv r : Ent),
                 ([(StepDesc.swap piv r, (rowSwap M piv r : Ent))] : List Step))
              else (M, ([] : List Step))).1 r c) : Ent))] : List Step))
          else ((if piv ≠ r then
                ((rowSwap M piv r : Ent),
                 ([(StepDesc.swap piv r, (rowSwap M piv r : Ent))] : List Step))
              else (M, ([] : List Step))).1, ([] : List Step))).1 := by
          split
          next hpr =>
            have h1 : LinkInv n A (rowSwap M piv r) :=
              linkInv_rowSwap n A M h piv r hp2 hrn
            split
            · exact linkInv_rowScale n A _ h1 r hrn _
            · exact h1
          next hpr =>
            split
            · exact linkInv_rowScale n A M h r hrn _
            · exact h
        exact ih (c + 1) (r + 1) _ (linkInv_elimAllAux n A r c hrn n 0 _ hM2)

/-- C2: for every square invertible `A` (nonzero determinant of the cofactor
reference), `inverse_steps` ends with the success step, the left `n×n` block
of the reduced augmented matrix is the identity, and the right block `R`
satisfies `A · R = 1` exactly in rational arithmetic. -/
theorem c2_inverse_correct (n : ℕ) (A : Ent) (hdet : cofDet n A ≠ 0) :
    inverse_steps n n A =
      (StepDesc.augInitial, augment A n) :: (rrefSweep n n 0 0 (augment A n)).2 ++
        [(StepDesc.invSuccess, (rrefSweep n n 0 0 (augment A n)).1)] ∧
    (∀ i j, i < n → j < n → (rrefSweep n n 0 0 (augment A n)).1 i j =
      if i = j then 1 else 0) ∧
    toSq A n * Matrix.of (fun i j : Fin n =>
      (rrefSweep n n 0 0 (augment A n)).1 (i : ℕ) (n + (j : ℕ))) = 1 := by
  have hdet' : (toSq (augment A n) n).det ≠ 0 := by
    rw [toSq_augment, ← cofDet_eq_det]
    exact hdet
  obtain ⟨hlinkf, hidf⟩ := rrefSweep_inverse n A n 0 (augment A n) (by omega)
    (linkInv_augment n A) hdet' (fun j hj => by omega)
  have hid2 : ∀ i j, i < n → j < n → (rrefSweep n n 0 0 (augment A n)).1 i j =
      if i = j then 1 else 0 := fun i j hi hj => hidf j hj i hi
  refine ⟨?_, hid2, Matrix.mul_eq_one_comm.mpr
    (link_id_mul n A (rrefSweep n n 0 0 (augment A n)).1 hlinkf hid2)⟩
  rw [inverse_steps_square, (leftIsId_true_iff _ n).mpr hid2]
  rfl

unseal Rat.add Rat.mul Rat.sub Rat.inv in
/-- C2 witness: the 2×2 matrix `[[2,1],[1,1]]`. -/
theorem c2_inverse_correct_witness :
    cofDet 2 (entOf [[2, 1], [1, 1]]) ≠ 0 ∧
    toSq (entOf [[2, 1], [1, 1]]) 2 * Matrix.of (fun i j : Fin 2 =>
      (rrefSweep 2 2 0 0 (augment (entOf [[2, 1], [1, 1]]) 2)).1 (i : ℕ) (2 + (j : ℕ))) = 1 :=
  ⟨by decide, (c2_inverse_correct 2 (entOf [[2, 1], [1, 1]]) (by decide)).2.2⟩

/-- C5: algorithmic non-results return normally: for a square singular `A`,
`inverse_steps` ends with the non-invertibility step, and for a well-shaped
system with zero determinant, `cramer_steps` returns the `None` sentinel with
the determinant steps retained in the log. -/
theorem c5_singular_nonresults (n brows : ℕ) (A b : Ent) (hdet : cofDet n A = 0) :
    (inverse_steps n n A).getLast? =
      some (StepDesc.invFail, (rrefSweep n n 0 0 (augment A n)).1) ∧
    (brows = n → cramer_steps n n A brows 1 b =
      Except.ok (none,
        [(StepDesc.augInitial, augmentCol A n b), (StepDesc.detOfA (cofDet n A), A),
         (StepDesc.noUnique, A)], cofDet n A, [], [])) := by
  constructor
  · have hLfalse : leftIsId (rrefSweep n n 0 0 (augment A n)).1 n = false := by
      by_contra hcon
      have hL : leftIsId (rrefSweep n n 0 0 (augment A n)).1 n = true := by
        revert hcon
        cases leftIsId (rrefSweep n n 0 0 (augment A n)).1 n <;> simp
      have hid2 := (leftIsId_true_iff _ n).mp hL
      exact cofDet_ne_zero_of_left_id n A _
        (rrefSweep_link n A n 0 0 (augment A n) (linkInv_augment n A))
        (fun i j hi hj => hid2 i j hi hj) hdet
    rw [inverse_steps_square, hLfalse]
    show (((StepDesc.augInitial, augment A n) :: (rrefSweep n n 0 0 (augment A n)).2) ++
      [(StepDesc.invFail, (rrefSweep n n 0 0 (augment A n)).1)]).getLast? = _
    exact List.getLast?_concat _
  · intro hb
    subst hb
    unfold cramer_steps
    rw [if_neg (by simp), if_neg (by simp), if_neg (by simp), if_pos hdet]

unseal Rat.add Rat.mul Rat.sub Rat.inv in
/-- C5 witness: the singular 2×2 matrix `[[1,2],[2,4]]` with `b = [[3],[2]]`. -/
theorem c5_singular_nonresults_witness :
    cofDet 2 (entOf [[1, 2], [2, 4]]) = 0 ∧
    cramer_steps 2 2 (entOf [[1, 2], [2, 4]]) 2 1 (entOf [[3], [2]]) =
      Except.ok (none,
        [(StepDesc.augInitial, augmentCol (entOf [[1, 2], [2, 4]]) 2 (entOf [[3], [2]])),
         (StepDesc.detOfA (cofDet 2 (entOf [[1, 2], [2, 4]])), entOf [[1, 2], [2, 4]]),
         (StepDesc.noUnique, entOf [[1, 2], [2, 4]])],
        cofDet 2 (entOf [[1, 2], [2, 4]]), [], []) :=
  ⟨by decide,
   (c5_singular_nonresults 2 2 (entOf [[1, 2], [2, 4]]) (entOf [[3], [2]])
     (by decide)).2 rfl⟩

/-! ## C3 — Cramer's rule -/

theorem cramerLoop_spec (n : ℕ) (A b : Ent) (detA : ℚ) :
    ∀ (fuel idx : ℕ),
      (cramerLoop n A b detA idx fuel).2.1 =
        ((List.range fuel).map fun t => cofDet n (substColE A (idx + t) b)) ∧
      (cramerLoop n A b detA idx fuel).2.2 =
        ((List.range fuel).map fun t => cofDet n (substColE A (idx + t) b) / detA) := by
  intro fuel
  induction fuel with
  | zero => intro idx; rw [cramerLoop]; simp
  | succ fuel ih =>
    intro idx
    rw [cramerLoop]
    obtain ⟨ih1, ih2⟩ := ih (idx + 1)
    constructor
    · show cofDet n (substColE A idx b) :: (cramerLoop n A b detA (idx + 1) fuel).2.1 = _
      rw [ih1, List.range_succ_eq_map, List.map_cons, List.map_map]
      refine congrArg₂ List.cons (by rw [Nat.add_zero]) ?_
      refine List.map_congr_left fun t _ => ?_
      rw [Function.comp_apply, show idx + 1 + t = idx + (t + 1) by omega]
    · show cofDet n (substColE A idx b) / detA ::
        (cramerLoop n A b detA (idx + 1) fuel).2.2 = _
      rw [ih2, List.range_succ_eq_map, List.map_cons, List.map_map]
      refine congrArg₂ List.cons (by rw [Nat.add_zero]) ?_
      refine List.map_congr_left fun t _ => ?_
      rw [Function.comp_apply, show idx + 1 + t = idx + (t + 1) by omega]

theorem substColE_toSq (A b : Ent) (n idx : ℕ) (h : idx < n) :
    toSq (substColE A idx b) n =
      (toSq A n).updateColumn ⟨idx, h⟩ (fun i => b (i : ℕ) 0) := by
  ext i j
  rw [Matrix.updateColumn_apply]
  show substColE A idx b (i : ℕ) (j : ℕ) = _
  unfold substColE
  by_cases hj : (j : ℕ) = idx
  · rw [if_pos hj, if_pos (Fin.ext hj)]
  · rw [if_neg hj, if_neg (fun hh => hj (by rw [hh]))]
    rfl

/-- The exact Cramer component `det(A_i)/det(A)` equals the `i`-th entry of
`R · b` for any exact inverse `R` of `A`. -/
theorem cramer_solution_eq (n : ℕ) (A b : Ent) (R : Matrix (Fin n) (Fin n) ℚ)
    (hdet : cofDet n A ≠ 0) (hR : toSq A n * R = 1) (idx : ℕ) (hidx : idx < n) :
    cofDet n (substColE A idx b) / cofDet n A =
      ∑ k : Fin n, R ⟨idx, hidx⟩ k * b (k : ℕ) 0 := by
  have hdet' : (toSq A n).det ≠ 0 := by rwa [← cofDet_eq_det]
  have hRA : R * toSq A n = 1 := Matrix.mul_eq_one_comm.mp hR
  have hmain : Matrix.cramer (toSq A n) (fun k : Fin n => b (k : ℕ) 0) =
      (toSq A n).det • (R.mulVec fun k : Fin n => b (k : ℕ) 0) := by
    have h1 := Matrix.mulVec_cramer (toSq A n) (fun k : Fin n => b (k : ℕ) 0)
    have h2 := congrArg (fun v => R.mulVec v) h1
    simp only [Matrix.mulVec_mulVec, hRA, Matrix.one_mulVec, Matrix.mulVec_smul] at h2
    exact h2
  have hcomp := congrFun hmain ⟨idx, hidx⟩
  rw [Matrix.cramer_apply, ← substColE_toSq A b n idx hidx, ← cofDet_eq_det] at hcomp
  have : cofDet n (substColE A idx b) =
      cofDet n A * (R.mulVec fun k : Fin n => b (k : ℕ) 0) ⟨idx, hidx⟩ := by
    rw [hcomp, cofDet_eq_det n A]
    rfl
  rw [this, mul_div_cancel_left₀ _ hdet]
  rfl

/-- C3: for every square system with nonzero determinant, `cramer_steps`
returns the exact solution `x_i = det(A_i)/det(A)` (columns substituted by
`b`) as exact rationals, and this solution equals `inverse(A) · b` entrywise,
exactly (for any exact inverse `R` of `A`). -/
theorem c3_cramer_correct (n : ℕ) (A b : Ent) (R : Matrix (Fin n) (Fin n) ℚ)
    (hdet : cofDet n A ≠ 0) (hR : toSq A n * R = 1) :
    cramer_steps n n A n 1 b =
      Except.ok
        (some ((List.range n).map fun i => cofDet n (substColE A i b) / cofDet n A),
         (StepDesc.augInitial, augmentCol A n b) :: (StepDesc.detOfA (cofDet n A), A) ::
           (cramerLoop n A b (cofDet n A) 0 n).1 ++
           [(StepDesc.solVec,
             colVec ((List.range n).map fun i => cofDet n (substColE A i b) / cofDet n A))],
         cofDet n A,
         (List.range n).map fun i => cofDet n (substColE A i b),
         (List.range n).map fun i => cofDet n (substColE A i b) / cofDet n A) ∧
    ∀ (i : ℕ) (h : i < n), cofDet n (substColE A i b) / cofDet n A =
      ∑ k : Fin n, R ⟨i, h⟩ k * b (k : ℕ) 0 := by
  obtain ⟨hdets, hsols⟩ := cramerLoop_spec n A b (cofDet n A) n 0
  have hdets' : (cramerLoop n A b (cofDet n A) 0 n).2.1 =
      ((List.range n).map fun i => cofDet n (substColE A i b)) := by
    rw [hdets]
    exact List.map_congr_left fun t _ => by rw [Nat.zero_add]
  have hsols' : (cramerLoop n A b (cofDet n A) 0 n).2.2 =
      ((List.range n).map fun i => cofDet n (substColE A i b) / cofDet n A) := by
    rw [hsols]
    exact List.map_congr_left fun t _ => by rw [Nat.zero_add]
  constructor
  · unfold cramer_steps
    rw [if_neg (by simp), if_neg (by simp), if_neg (by simp), if_neg hdet,
      hdets', hsols']
  · intro i h
    exact cramer_solution_eq n A b R hdet hR i h

unseal Rat.add Rat.mul Rat.sub Rat.inv in
/-- C3 witness: `A = [[2,1],[1,1]]`, `b = [[3],[2]]`,
`R = [[1,-1],[-1,2]]`. -/
theorem c3_cramer_correct_witness :
    cofDet 2 (entOf [[2, 1], [1, 1]]) ≠ 0 ∧
    toSq (entOf [[2, 1], [1, 1]]) 2 * Matrix.of ![![(1 : ℚ), -1], ![-1, 2]] = 1 ∧
    ∀ (i : ℕ) (h : i < 2),
      cofDet 2 (substColE (entOf [[2, 1], [1, 1]]) i (entOf [[3], [2]])) /
        cofDet 2 (entOf [[2, 1], [1, 1]]) =
      ∑ k : Fin 2, Matrix.of ![![(1 : ℚ), -1], ![-1, 2]] ⟨i, h⟩ k *
        entOf [[3], [2]] (k : ℕ) 0 :=
  ⟨by decide, by decide,
   (c3_cramer_correct 2 (entOf [[2, 1], [1, 1]]) (entOf [[3], [2]])
     (Matrix.of ![![(1 : ℚ), -1], ![-1, 2]]) (by decide) (by decide)).2⟩

/-! ## C4 — RREF normal form and idempotence -/

/-- Number of pivot columns strictly to the left of column `c`. -/
def countLt (ps : List ℕ) (c : ℕ) : ℕ := ps.countP fun p => decide (p < c)

theorem countLt_zero (ps : List ℕ) : countLt ps 0 = 0 := by
  rw [countLt, List.countP_eq_zero]
  intro a _
  simp

theorem countLt_le_length (ps : List ℕ) (c : ℕ) : countLt ps c ≤ ps.length :=
  List.countP_le_length _

theorem countLt_nil (c : ℕ) : countLt [] c = 0 := rfl

theorem countLt_cons (a : ℕ) (t : List ℕ) (c : ℕ) :
    countLt (a :: t) c = countLt t c + if a < c then 1 else 0 := by
  rw [countLt, List.countP_cons, ← countLt]
  by_cases h : a < c
  · rw [if_pos h, if_pos (by simpa using h)]
  · rw [if_neg h, if_neg (by simpa using h)]

theorem countLt_succ (ps : List ℕ) (c : ℕ) :
    countLt ps (c + 1) = countLt ps c + ps.count c := by
  induction ps with
  | nil => rfl
  | cons a t ih =>
    have e3 : (a :: t).count c = t.count c + if a = c then 1 else 0 := by
      rw [List.count_cons]
      by_cases h : a = c
      · rw [if_pos h, if_pos (by simpa using h)]
      · rw [if_neg h, if_neg (by simpa using h)]
    rw [countLt_cons, countLt_cons, e3, ih]
    by_cases h1 : a < c
    · rw [if_pos (by omega), if_pos h1, if_neg (by omega)]
      omega
    · by_cases h2 : a = c
      · rw [if_pos (by omega), if_neg h1, if_pos h2]
        omega
      · rw [if_neg (by omega), if_neg h1, if_neg h2]
        omega

theorem countLt_append (ps qs : List ℕ) (c : ℕ) :
    countLt (ps ++ qs) c = countLt ps c + countLt qs c :=
  List.countP_append _ _ _

theorem countLt_eq_length (ps : List ℕ) (c : ℕ) (h : ∀ p ∈ ps, p < c) :
    countLt ps c = ps.length := by
  rw [countLt, List.countP_eq_length]
  intro a ha
  simpa using h a ha

/-- In a strictly increasing list, the number of elements below the element
at position `idx` is exactly `idx`. -/
theorem sorted_countLt_get (ps : List ℕ) (hs : List.Pairwise (· < ·) ps) :
    ∀ (idx : ℕ) (h : idx < ps.length), countLt ps (ps.get ⟨idx, h⟩) = idx := by
  induction ps with
  | nil => intro idx h; exact absurd h (by simp)
  | cons a t ih =>
    rw [List.pairwise_cons] at hs
    intro idx h
    match idx with
    | 0 =>
      show countLt (a :: t) a = 0
      rw [countLt, List.countP_eq_zero]
      intro x hx
      rcases List.mem_cons.mp hx with h1 | h1
      · simp [h1]
      · have := hs.1 x h1
        simp only [decide_eq_true_eq]
        omega
    | idx + 1 =>
      have hlt : idx < t.length := by
        simp only [List.length_cons] at h
        omega
      show countLt (a :: t) (t.get ⟨idx, hlt⟩) = idx + 1
      rw [countLt_cons, ih hs.2 idx hlt,
        if_pos (hs.1 _ (List.get_mem t idx hlt))]

/-- The pivot search returns the first nonzero row. -/
theorem findPivotAux_first (M : Ent) (c : ℕ) :
    ∀ (fuel i piv : ℕ), findPivotAux M c i fuel = some piv →
      ∀ k, i ≤ k → k < piv → M k c = 0 := by
  intro fuel
  induction fuel with
  | zero => intro i piv h; exact absurd h (by rw [findPivotAux]; simp)
  | succ fuel ih =>
    intro i piv h k hk1 hk2
    rw [findPivotAux] at h
    by_cases hz : M i c ≠ 0
    · rw [if_pos hz] at h
      injection h with h
      omega
    · rw [if_neg hz] at h
      by_cases hik : k = i
      · subst hik; exact not_not.mp hz
      · exact ih (i + 1) piv h k (by omega) hk2

theorem findPivot_first (M : Ent) (c r rows piv : ℕ)
    (h : findPivot M c r rows = some piv) :
    ∀ k, r ≤ k → k < piv → M k c = 0 :=
  findPivotAux_first M c (rows - r) r piv h

/-- When every eligible row already has a zero in the pivot column, the
RREF-mode elimination loop does nothing and records nothing. -/
theorem elimAllAux_noop (r c : ℕ) :
    ∀ (fuel i : ℕ) (M : Ent),
      (∀ a, i ≤ a → a < i + fuel → a ≠ r → M a c = 0) →
      elimAllAux r c i fuel M = (M, []) := by
  intro fuel
  induction fuel with
  | zero => intro i M h; rw [elimAllAux]
  | succ fuel ih =>
    intro i M h
    rw [elimAllAux]
    by_cases hir : i = r
    · rw [if_neg (by rintro ⟨h1, -⟩; exact h1 hir)]
      exact ih (i + 1) M fun a ha1 ha2 ha3 => h a (by omega) (by omega) ha3
    · rw [if_neg (by rintro ⟨-, h2⟩; exact h2 (h i (le_refl i) (by omega) hir))]
      exact ih (i + 1) M fun a ha1 ha2 ha3 => h a (by omega) (by omega) ha3

theorem findPivotAux_eq_none (M : Ent) (c : ℕ) :
    ∀ (fuel i : ℕ), (∀ k, i ≤ k → k < i + fuel → M k c = 0) →
      findPivotAux M c i fuel = none := by
  intro fuel
  induction fuel with
  | zero => intro i h; rw [findPivotAux]
  | succ fuel ih =>
    intro i h
    rw [findPivotAux, if_neg (not_not.mpr (h i (le_refl i) (by omega)))]
    exact ih (i + 1) fun k hk1 hk2 => h k (by omega) (by omega)

theorem findPivot_eq_none (M : Ent) (c r rows : ℕ)
    (h : ∀ k, r ≤ k → k < rows → M k c = 0) : findPivot M c r rows = none :=
  findPivotAux_eq_none M c (rows - r) r fun k hk1 hk2 => h k hk1 (by omega)

theorem get_append_singleton (a : ℕ) :
    ∀ (l : List ℕ) (h : l.length < (l ++ [a]).length),
      (l ++ [a]).get ⟨l.length, h⟩ = a := by
  intro l
  induction l with
  | nil => intro h; rfl
  | cons b t ih => intro h; exact ih (by simp)

/-- The RREF normal form a finished sweep leaves behind: a strictly
increasing list `ps` of pivot columns bounded by `cols` and by the row count;
each pivot column is the corresponding identity column; every non-pivot
column is zero below the pivot rows established to its left. -/
def IsRREF (rows cols : ℕ) (ps : List ℕ) (M : Ent) : Prop :=
  List.Pairwise (· < ·) ps ∧ (∀ p ∈ ps, p < cols) ∧ ps.length ≤ rows ∧
  (∀ (jIdx : ℕ) (h : jIdx < ps.length), ∀ i, i < rows →
    M i (ps.get ⟨jIdx, h⟩) = if i = jIdx then 1 else 0) ∧
  (∀ c2, c2 < cols → c2 ∉ ps → ∀ i, countLt ps c2 ≤ i → i < rows → M i c2 = 0)

/-- First run establishes the RREF normal form: starting at pivot row
`ps.length` with the columns before `c` already processed (pivot columns
`ps`), the sweep over the remaining `fuel` columns leaves a matrix in RREF
normal form for some extension of the pivot list. -/
theorem rrefSweep_establishes (rows : ℕ) :
    ∀ (fuel c : ℕ) (ps : List ℕ) (M : Ent),
      (∀ p ∈ ps, p < c) →
      List.Pairwise (· < ·) ps →
      ps.length ≤ rows →
      (∀ (jIdx : ℕ) (h : jIdx < ps.length), ∀ i, i < rows →
        M i (ps.get ⟨jIdx, h⟩) = if i = jIdx then 1 else 0) →
      (∀ c2, c2 < c → c2 ∉ ps → ∀ i, countLt ps c2 ≤ i → i < rows → M i c2 = 0) →
      ∃ qs : List ℕ, (∀ q ∈ qs, c ≤ q) ∧
        IsRREF rows (c + fuel) (ps ++ qs) (rrefSweep rows fuel c ps.length M).1 := by
  intro fuel
  induction fuel with
  | zero =>
    intro c ps M hbnd hsort hlen hpivs hzero
    rw [rrefSweep]
    refine ⟨[], fun q hq => absurd hq (List.not_mem_nil q), ?_⟩
    rw [List.append_nil]
    exact ⟨hsort, hbnd, hlen, hpivs, hzero⟩
  | succ fuel ih =>
    intro c ps M hbnd hsort hlen hpivs hzero
    by_cases hbreak : rows ≤ ps.length
    · rw [rrefSweep, if_pos hbreak]
      refine ⟨[], fun q hq => absurd hq (List.not_mem_nil q), ?_⟩
      rw [List.append_nil]
      refine ⟨hsort, fun p hp => by have := hbnd p hp; omega, hlen, hpivs, ?_⟩
      intro c2 hc2 hc2m i hi1 hi2
      by_cases hc2c : c2 < c
      · exact hzero c2 hc2c hc2m i hi1 hi2
      · exfalso
        have hce : countLt ps c2 = ps.length :=
          countLt_eq_length ps c2 (fun p hp => by have := hbnd p hp; omega)
        omega
    · rw [rrefSweep, if_neg hbreak]
      split
      next hfp =>
        have hznew : ∀ c2, c2 < c + 1 → c2 ∉ ps → ∀ i, countLt ps c2 ≤ i →
            i < rows → M i c2 = 0 := by
          intro c2 hc2 hc2m i hi1 hi2
          by_cases hc2c : c2 < c
          · exact hzero c2 hc2c hc2m i hi1 hi2
          · have hc2e : c2 = c := by omega
            have hce : countLt ps c2 = ps.length :=
              countLt_eq_length ps c2 (fun p hp => by have := hbnd p hp; omega)
            rw [hc2e]
            exact findPivot_none M c ps.length rows hfp i (by omega) hi2
        obtain ⟨qs, hq, hR⟩ := ih (c + 1) ps M
          (fun p hp => by have := hbnd p hp; omega) hsort hlen hpivs hznew
        refine ⟨qs, fun q hq2 => by have := hq q hq2; omega, ?_⟩
        rw [show c + (fuel + 1) = c + 1 + fuel from by omega]
        exact hR
      next piv hfp =>
        obtain ⟨hp1, hp2, hp3⟩ := findPivot_some M c ps.length rows piv hfp
        have hrn : ps.length < rows := by omega
        have key2 : ∀ M2 : Ent,
            (∀ (jIdx : ℕ) (h : jIdx < ps.length), ∀ i, i < rows →
              M2 i (ps.get ⟨jIdx, h⟩) = if i = jIdx then 1 else 0) →
            (∀ c2, c2 < c → c2 ∉ ps → ∀ i, countLt ps c2 ≤ i → i < rows →
              M2 i c2 = 0) →
            M2 ps.length c = 1 →
            ∃ qs : List ℕ, (∀ q ∈ qs, c ≤ q) ∧
              IsRREF rows (c + (fuel + 1)) (ps ++ qs)
                (rrefSweep rows fuel (c + 1) (ps.length + 1)
                  (elimAllAux ps.length c 0 rows M2).1).1 := by
          intro M2 hpiv2 hzero2 hone2
          obtain ⟨e1, e2, e3, e4, e5⟩ :=
            elimAllAux_spec rows ps.length c hrn rows 0 M2 (by omega)
          have hlen1 : (ps ++ [c]).length = ps.length + 1 := by simp
          have hbnd1 : ∀ p ∈ ps ++ [c], p < c + 1 := by
            intro p hp
            rcases List.mem_append.mp hp with h1 | h1
            · have := hbnd p h1; omega
            · rw [List.mem_singleton] at h1; omega
          have hsort1 : List.Pairwise (· < ·) (ps ++ [c]) := by
            rw [List.pairwise_append]
            refine ⟨hsort, List.pairwise_singleton _ _, ?_⟩
            intro x hx y hy
            rw [List.mem_singleton] at hy
            subst hy
            exact hbnd x hx
          have hpivrow : ∀ p, p ∈ ps → M2 ps.length p = 0 := by
            intro p hp
            obtain ⟨⟨jIdx, hj⟩, hget⟩ := List.get_of_mem hp
            rw [← hget, hpiv2 jIdx hj ps.length hrn, if_neg (by omega)]
          have hpivs1 : ∀ (jIdx : ℕ) (h : jIdx < (ps ++ [c]).length),
              ∀ i, i < rows → (elimAllAux ps.length c 0 rows M2).1 i
                ((ps ++ [c]).get ⟨jIdx, h⟩) = if i = jIdx then 1 else 0 := by
            intro jIdx h i hi
            have hj2 : jIdx < ps.length + 1 := by rw [← hlen1]; exact h
            by_cases hjp : jIdx < ps.length
            · rw [List.get_append jIdx hjp,
                e4 i _ (hpivrow _ (List.get_mem ps jIdx hjp))]
              exact hpiv2 jIdx hjp i hi
            · have hje : jIdx = ps.length := by omega
              subst hje
              rw [get_append_singleton c ps h]
              by_cases hir : i = ps.length
              · subst hir
                rw [e2 c, hone2, if_pos rfl]
              · rw [e3 hone2 i (by omega) (by omega) hir, if_neg hir]
          have hzero1 : ∀ c2, c2 < c + 1 → c2 ∉ ps ++ [c] → ∀ i,
              countLt (ps ++ [c]) c2 ≤ i → i < rows →
              (elimAllAux ps.length c 0 rows M2).1 i c2 = 0 := by
            intro c2 hc2 hc2m i hi1 hi2
            have hc2c : c2 < c := by
              rcases Nat.lt_or_ge c2 c with h1 | h1
              · exact h1
              · exfalso
                refine hc2m ?_
                rw [List.mem_append, List.mem_singleton]
                right
                omega
            have hc2ps : c2 ∉ ps := fun hh => hc2m (List.mem_append.mpr (Or.inl hh))
            have hcnt : countLt (ps ++ [c]) c2 = countLt ps c2 := by
              rw [countLt_append, countLt_cons, countLt_nil,
                if_neg (by omega : ¬c < c2)]
              omega
            have hr0 : M2 ps.length c2 = 0 :=
              hzero2 c2 hc2c hc2ps ps.length (countLt_le_length ps c2) hrn
            rw [e4 i c2 hr0]
            exact hzero2 c2 hc2c hc2ps i (by omega) hi2
          have hih := ih (c + 1) (ps ++ [c]) (elimAllAux ps.length c 0 rows M2).1
            hbnd1 hsort1 (by rw [hlen1]; omega) hpivs1 hzero1
          rw [hlen1] at hih
          obtain ⟨qs, hq, hR⟩ := hih
          refine ⟨c :: qs, ?_, ?_⟩
          · intro q hq2
            rcases List.mem_cons.mp hq2 with h1 | h1
            · omega
            · have := hq q h1; omega
          · rw [show c + (fuel + 1) = c + 1 + fuel from by omega, List.append_cons]
            exact hR
        have key1 : ∀ M1 : Ent,
            (∀ (jIdx : ℕ) (h : jIdx < ps.length), ∀ i, i < rows →
              M1 i (ps.get ⟨jIdx, h⟩) = if i = jIdx then 1 else 0) →
            (∀ c2, c2 < c → c2 ∉ ps → ∀ i, countLt ps c2 ≤ i → i < rows →
              M1 i c2 = 0) →
            M1 ps.length c ≠ 0 →
            ∃ qs : List ℕ, (∀ q ∈ qs, c ≤ q) ∧
              IsRREF rows (c + (fuel + 1)) (ps ++ qs)
                (rrefSweep rows fuel (c + 1) (ps.length + 1)
                  (elimAllAux ps.length c 0 rows
                    (if M1 ps.length c ≠ 1 then
                      ((rowScale M1 ps.length (M1 ps.length c) : Ent),
                       ([(StepDesc.scale ps.length (M1 ps.length c),
                          (rowScale M1 ps.length (M1 ps.length c) : Ent))] : List Step))
                     else (M1, ([] : List Step))).1).1).1 := by
          intro M1 hpiv1 hzero1 hnz1
          split
          next hsc =>
            refine key2 (rowScale M1 ps.length (M1 ps.length c)) ?_ ?_ ?_
            · intro jIdx hj i hi
              unfold rowScale
              by_cases hir : i = ps.length
              · rw [if_pos hir, hpiv1 jIdx hj i hi,
                  if_neg (show ¬i = jIdx by omega), zero_div]
              · rw [if_neg hir]
                exact hpiv1 jIdx hj i hi
            · intro c2 hc2 hc2m i hi1 hi2
              have hcle := countLt_le_length ps c2
              unfold rowScale
              by_cases hir : i = ps.length
              · rw [if_pos hir, hzero1 c2 hc2 hc2m i (by omega) hi2, zero_div]
              · rw [if_neg hir]
                exact hzero1 c2 hc2 hc2m i hi1 hi2
            · unfold rowScale
              rw [if_pos rfl, div_self hnz1]
          next hsc =>
            exact key2 M1 hpiv1 hzero1 (not_not.mp hsc)
        split
        next hpr =>
          refine key1 (rowSwap M piv ps.length) ?_ ?_ ?_
          · intro jIdx hj i hi
            unfold rowSwap
            by_cases e1 : i = piv
            · rw [if_pos e1, hpivs jIdx hj ps.length hrn,
                if_neg (show ¬ps.length = jIdx by omega),
                if_neg (show ¬i = jIdx by omega)]
            · rw [if_neg e1]
              by_cases e2 : i = ps.length
              · rw [if_pos e2, hpivs jIdx hj piv hp2,
                  if_neg (show ¬piv = jIdx by omega),
                  if_neg (show ¬i = jIdx by omega)]
              · rw [if_neg e2]
                exact hpivs jIdx hj i hi
          · intro c2 hc2 hc2m i hi1 hi2
            have hcle := countLt_le_length ps c2
            unfold rowSwap
            by_cases e1 : i = piv
            · rw [if_pos e1]
              exact hzero c2 hc2 hc2m ps.length (by omega) hrn
            · rw [if_neg e1]
              by_cases e2 : i = ps.length
              · rw [if_pos e2]
                exact hzero c2 hc2 hc2m piv (by omega) hp2
              · rw [if_neg e2]
                exact hzero c2 hc2 hc2m i hi1 hi2
          · show rowSwap M piv ps.length ps.length c ≠ 0
            unfold rowSwap
            rw [if_neg (show ¬ps.length = piv by omega), if_pos rfl]
            exact hp3
        next hpr =>
          have hpr2 : piv = ps.length := by omega
          subst hpr2
          exact key1 M hpivs hzero hp3

/-- Second run is a no-op: on a matrix already in RREF normal form the sweep
finds every pivot already in place (pivot 1, all other entries of the column
0) and no pivot in the other columns, so it performs no row operation and
records no step. -/
theorem rrefSweep_noop (rows cols : ℕ) (ps : List ℕ) :
    ∀ (fuel c : ℕ) (M : Ent), c + fuel = cols → IsRREF rows cols ps M →
      rrefSweep rows fuel c (countLt ps c) M = (M, []) := by
  intro fuel
  induction fuel with
  | zero => intro c M hc hR; rw [rrefSweep]
  | succ fuel ih =>
    intro c M hc hR
    obtain ⟨hsort, hbnd, hlen, hpivs, hzero⟩ := hR
    set r := countLt ps c with hrdef
    by_cases hbreak : rows ≤ r
    · rw [rrefSweep, if_pos hbreak]
    · rw [rrefSweep, if_neg hbreak]
      by_cases hmem : c ∈ ps
      · obtain ⟨⟨jIdx, hj⟩, hget⟩ := List.get_of_mem hmem
        have hrj : r = jIdx := by
          rw [hrdef, ← hget]
          exact sorted_countLt_get ps hsort jIdx hj
        have hcol : ∀ i, i < rows → M i c = if i = jIdx then 1 else 0 := by
          intro i hi
          rw [← hget]
          exact hpivs jIdx hj i hi
        have hrrows : r < rows := by omega
        have hMrc : M r c = 1 := by rw [hcol r hrrows, if_pos hrj]
        have helim : elimAllAux r c 0 rows M = (M, []) := by
          refine elimAllAux_noop r c rows 0 M ?_
          intro a ha1 ha2 ha3
          rw [hcol a (by omega), if_neg (by omega)]
        have hcount1 : countLt ps (c + 1) = r + 1 := by
          rw [countLt_succ, ← hrdef,
            List.count_eq_one_of_mem (hsort.imp fun h => Nat.ne_of_lt h) hmem]
        have hrest : rrefSweep rows fuel (c + 1) (r + 1) M = (M, []) := by
          have h1 := ih (c + 1) M (by omega) ⟨hsort, hbnd, hlen, hpivs, hzero⟩
          rwa [hcount1] at h1
        have hfp1 : findPivot M c r rows = some r :=
          findPivot_eq_self M c r rows hrrows (by rw [hMrc]; exact one_ne_zero)
        split
        next hfp =>
          rw [hfp1] at hfp
          exact Option.noConfusion hfp
        next piv hfp =>
          rw [hfp1] at hfp
          injection hfp with hpr
          subst hpr
          have key : ∀ S1 : Ent × List Step, S1 = (M, ([] : List Step)) →
              ((rrefSweep rows fuel (c + 1) (r + 1) (elimAllAux r c 0 rows
                  (if S1.1 r c ≠ 1 then
                    ((rowScale S1.1 r (S1.1 r c) : Ent),
                     ([(StepDesc.scale r (S1.1 r c),
                        (rowScale S1.1 r (S1.1 r c) : Ent))] : List Step))
                   else (S1.1, ([] : List Step))).1).1).1,
               S1.2 ++ (if S1.1 r c ≠ 1 then
                    ((rowScale S1.1 r (S1.1 r c) : Ent),
                     ([(StepDesc.scale r (S1.1 r c),
                        (rowScale S1.1 r (S1.1 r c) : Ent))] : List Step))
                   else (S1.1, ([] : List Step))).2 ++
                 (elimAllAux r c 0 rows
                  (if S1.1 r c ≠ 1 then
                    ((rowScale S1.1 r (S1.1 r c) : Ent),
                     ([(StepDesc.scale r (S1.1 r c),
                        (rowScale S1.1 r (S1.1 r c) : Ent))] : List Step))
                   else (S1.1, ([] : List Step))).1).2 ++
                 (rrefSweep rows fuel (c + 1) (r + 1) (elimAllAux r c 0 rows
                  (if S1.1 r c ≠ 1 then
                    ((rowScale S1.1 r (S1.1 r c) : Ent),
                     ([(StepDesc.scale r (S1.1 r c),
                        (rowScale S1.1 r (S1.1 r c) : Ent))] : List Step))
                   else (S1.1, ([] : List Step))).1).1).2) =
              (M, ([] : List Step)) := by
            intro S1 hS1
            subst hS1
            rw [if_neg (fun hh => hh hMrc : ¬((M, ([] : List Step)).1 r c ≠ 1))]
            rw [(helim : elimAllAux r c 0 rows
              (((M, ([] : List Step)).1, ([] : List Step)) : Ent × List Step).1 =
                (M, ([] : List Step)))]
            rw [(hrest : rrefSweep rows fuel (c + 1) (r + 1)
              ((M, ([] : List Step)) : Ent × List Step).1 = (M, ([] : List Step)))]
            rfl
          exact key (if r ≠ r then
              ((rowSwap M r r : Ent),
               ([(StepDesc.swap r r, (rowSwap M r r : Ent))] : List Step))
            else (M, ([] : List Step))) (if_neg (fun hh => hh rfl))
      · have hcount0 : countLt ps (c + 1) = r := by
          rw [countLt_succ, ← hrdef, List.count_eq_zero.mpr hmem, Nat.add_zero]
        have hz : ∀ k, r ≤ k → k < rows → M k c = 0 := by
          intro k hk1 hk2
          exact hzero c (by omega) hmem k (by rw [← hrdef]; exact hk1) hk2
        have hfp0 : findPivot M c r rows = none := findPivot_eq_none M c r rows hz
        split
        next hfp =>
          have h1 := ih (c + 1) M (by omega) ⟨hsort, hbnd, hlen, hpivs, hzero⟩
          rwa [hcount0] at h1
        next piv hfp =>
          rw [hfp0] at hfp
          exact Option.noConfusion hfp

/-- C4: `rref_steps` is idempotent.  The final matrix of `rref_steps(A)` is
the one recorded by its closing final-result step, and running `rref_steps`
again on that matrix yields the same matrix, with a log consisting of
exactly the initial-state and final-result markers and no other step. -/
theorem c4_rref_idempotent (rows cols : ℕ) (A : Ent) :
    (rref_steps rows cols A).getLast? =
      some (StepDesc.rrefDone, (rrefSweep rows cols 0 0 A).1) ∧
    rref_steps rows cols ((rrefSweep rows cols 0 0 A).1) =
      [(StepDesc.initial, (rrefSweep rows cols 0 0 A).1),
       (StepDesc.rrefDone, (rrefSweep rows cols 0 0 A).1)] := by
  obtain ⟨qs, hq, hR⟩ := rrefSweep_establishes rows cols 0 [] A
    (fun p hp => absurd hp (List.not_mem_nil p))
    List.Pairwise.nil (Nat.zero_le rows)
    (fun jIdx h => absurd h (by simp))
    (fun c2 hc2 => absurd hc2 (by omega))
  rw [List.nil_append, Nat.zero_add] at hR
  have hnoop := rrefSweep_noop rows cols qs cols 0
    ((rrefSweep rows cols 0 0 A).1) (by omega) hR
  rw [countLt_zero] at hnoop
  constructor
  · show (((StepDesc.initial, A) :: (rrefSweep rows cols 0 0 A).2) ++
      [(StepDesc.rrefDone, (rrefSweep rows cols 0 0 A).1)]).getLast? =
      some (StepDesc.rrefDone, (rrefSweep rows cols 0 0 A).1)
    exact List.getLast?_concat _
  · show (StepDesc.initial, (rrefSweep rows cols 0 0 A).1) ::
      (rrefSweep rows cols 0 0 ((rrefSweep rows cols 0 0 A).1)).2 ++
      [(StepDesc.rrefDone,
        (rrefSweep rows cols 0 0 ((rrefSweep rows cols 0 0 A).1)).1)] = _
    rw [hnoop]
    rfl

/-! ## C8 — failure characterization of `parse_matrix` -/

/-- Spec-side reading of the claim's condition "the parsed structure is not
exactly 2-dimensional": the literal parse of the (`;`→`,` rewritten, stripped)
text succeeds and consumes the whole input, but the value is not a nonempty
rectangular nesting of depth exactly 2. -/
def claimedNotTwoD (text : String) : Bool :=
  match parseTop (2 * (replaceSemis (trimChars text.toList)).length + 4)
      (replaceSemis (trimChars text.toList)) with
  | some (v, rest) => (skipWs rest).isEmpty && (to2D v).isNone
  | none => false

theorem mapM_except_ok_iff {α β : Type} (f : α → Except String β) :
    ∀ (l : List α) (r : List β), l.mapM f = Except.ok r ↔
      List.Forall₂ (fun a b => f a = Except.ok b) l r := by
  intro l
  induction l with
  | nil =>
    intro r
    constructor
    · intro h
      have h2 : Except.ok ([] : List β) = Except.ok r := h
      injection h2 with h3
      rw [← h3]
      exact List.Forall₂.nil
    · intro h
      cases h
      rfl
  | cons a t ih =>
    intro r
    constructor
    · intro h
      rw [List.mapM_cons] at h
      cases hfa : f a with
      | error e =>
        rw [hfa] at h
        exact Except.noConfusion h
      | ok b =>
        rw [hfa] at h
        cases hmt : t.mapM f with
        | error e =>
          rw [hmt] at h
          exact Except.noConfusion h
        | ok xs =>
          rw [hmt] at h
          have h2 : Except.ok (b :: xs) = Except.ok r := h
          injection h2 with h3
          rw [← h3]
          exact List.Forall₂.cons hfa ((ih xs).mp hmt)
    · intro h
      cases h with
      | cons hab htail =>
        rw [List.mapM_cons, hab, (ih _).mpr htail]
        rfl

theorem forall2_exists_of_forall {α β : Type} (f : α → Except String β) :
    ∀ l : List α, (∀ a ∈ l, ∃ b, f a = Except.ok b) →
      ∃ r, List.Forall₂ (fun a b => f a = Except.ok b) l r := by
  intro l
  induction l with
  | nil => intro h; exact ⟨[], List.Forall₂.nil⟩
  | cons a t ih =>
    intro h
    obtain ⟨b, hb⟩ := h a (List.mem_cons_self a t)
    obtain ⟨r, hr⟩ := ih fun x hx => h x (List.mem_cons_of_mem a hx)
    exact ⟨b :: r, List.Forall₂.cons hb hr⟩

theorem mapM_except_error {α β : Type} (f : α → Except String β) :
    ∀ l : List α, (∃ a ∈ l, ∃ e, f a = Except.error e) →
      ∃ e2, l.mapM f = Except.error e2 := by
  intro l
  induction l with
  | nil =>
    intro h
    obtain ⟨a, ha, -⟩ := h
    exact absurd ha (List.not_mem_nil a)
  | cons a t ih =>
    intro h
    cases hfa : f a with
    | error e => exact ⟨e, by rw [List.mapM_cons, hfa]; rfl⟩
    | ok b =>
      obtain ⟨a2, ha2, e, he⟩ := h
      rcases List.mem_cons.mp ha2 with h1 | h1
      · rw [h1] at he
        rw [hfa] at he
        exact Except.noConfusion he
      · obtain ⟨e2, he2⟩ := ih ⟨a2, h1, e, he⟩
        exact ⟨e2, by rw [List.mapM_cons, hfa, he2]; rfl⟩

theorem forall2_mem_right {α β : Type} {R : α → β → Prop} {l : List α}
    {r : List β} (h : List.Forall₂ R l r) : ∀ b ∈ r, ∃ a ∈ l, R a b := by
  induction h with
  | nil => intro b hb; exact absurd hb (List.not_mem_nil b)
  | cons hx htail ih =>
    intro b hb
    rcases List.mem_cons.mp hb with h1 | h1
    · subst h1
      exact ⟨_, List.mem_cons_self _ _, hx⟩
    · obtain ⟨a, ha, hab⟩ := ih b h1
      exact ⟨a, List.mem_cons_of_mem _ ha, hab⟩

theorem forall2_mem_left {α β : Type} {R : α → β → Prop} {l : List α}
    {r : List β} (h : List.Forall₂ R l r) : ∀ a ∈ l, ∃ b ∈ r, R a b := by
  induction h with
  | nil => intro a ha; exact absurd ha (List.not_mem_nil a)
  | cons hx htail ih =>
    intro a ha
    rcases List.mem_cons.mp ha with h1 | h1
    · subst h1
      exact ⟨_, List.mem_cons_self _ _, hx⟩
    · obtain ⟨b, hb, hab⟩ := ih a h1
      exact ⟨b, List.mem_cons_of_mem _ hb, hab⟩

/-- The tail of `freeformRows` (non-emptiness and rectangularity checks),
factored out so the successful `mapM` can be rewritten. -/
def rowsCheck (rows : List (List ℚ)) : Except String (List (List ℚ)) :=
  match rows with
  | [] => Except.error ("No se pudo interpretar la matriz")
  | r0 :: rest =>
    if rest.all fun r => r.length = r0.length then Except.ok (r0 :: rest)
    else Except.error ("Todas las filas deben tener el mismo numero de columnas")

theorem freeformRows_eq_ok (s : List Char) (rows : List (List ℚ))
    (h : (freeformLines s).mapM rowOfLine = Except.ok rows) :
    freeformRows s = rowsCheck rows := by
  unfold freeformRows
  rw [h]
  rfl

theorem freeformRows_eq_err (s : List Char) (e : String)
    (h : (freeformLines s).mapM rowOfLine = Except.error e) :
    freeformRows s = Except.error e := by
  unfold freeformRows
  rw [h]
  rfl

/-- The free-form path fails exactly when there is no non-empty line, some
token is not a valid number, or two lines have different token counts. -/
theorem freeformRows_error_iff (s : List Char) :
    (∃ e, freeformRows s = Except.error e) ↔
      (freeformLines s = [] ∨
       (∃ line ∈ freeformLines s, ∃ t ∈ lineTokens line, pyFloat t = none) ∨
       (∃ l0 rest, freeformLines s = l0 :: rest ∧
          ∃ l ∈ rest, (lineTokens l).length ≠ (lineTokens l0).length)) := by
  by_cases hbad : ∃ line ∈ freeformLines s, ∃ t ∈ lineTokens line, pyFloat t = none
  · obtain ⟨line, hline, t, ht, htok⟩ := hbad
    have h1 : ∃ e, rowOfLine line = Except.error e := by
      obtain ⟨e0, he0⟩ := mapM_except_error
        (fun t2 => match pyFloat t2 with
          | some q => Except.ok q
          | none => Except.error ("could not convert string to float"))
        (lineTokens line)
        ⟨t, ht, "could not convert string to float", by
          show (match pyFloat t with
            | some q => Except.ok q
            | none => Except.error ("could not convert string to float")) =
            Except.error ("could not convert string to float")
          rw [htok]⟩
      exact ⟨e0, he0⟩
    obtain ⟨e1, he1⟩ := h1
    obtain ⟨e2, he2⟩ := mapM_except_error rowOfLine (freeformLines s)
      ⟨line, hline, e1, he1⟩
    exact iff_of_true ⟨e2, freeformRows_eq_err s e2 he2⟩
      (Or.inr (Or.inl ⟨line, hline, t, ht, htok⟩))
  · have hgood : ∀ line ∈ freeformLines s, ∃ r, rowOfLine line = Except.ok r := by
      intro line hline
      have hg2 : ∀ t ∈ lineTokens line, ∃ q, (match pyFloat t with
          | some q2 => Except.ok q2
          | none => Except.error ("could not convert string to float")) =
            Except.ok q := by
        intro t ht
        cases hp : pyFloat t with
        | none => exact absurd ⟨line, hline, t, ht, hp⟩ hbad
        | some q => exact ⟨q, rfl⟩
      obtain ⟨r, hr⟩ := forall2_exists_of_forall _ (lineTokens line) hg2
      exact ⟨r, (mapM_except_ok_iff _ (lineTokens line) r).mpr hr⟩
    obtain ⟨rows, hrows⟩ := forall2_exists_of_forall rowOfLine (freeformLines s) hgood
    have hmap : (freeformLines s).mapM rowOfLine = Except.ok rows :=
      (mapM_except_ok_iff rowOfLine (freeformLines s) rows).mpr hrows
    have hlens : ∀ (line : List Char) (r : List ℚ), rowOfLine line = Except.ok r →
        r.length = (lineTokens line).length := by
      intro line r hr
      exact (List.Forall₂.length_eq ((mapM_except_ok_iff _ (lineTokens line) r).mp hr)).symm
    rw [freeformRows_eq_ok s rows hmap]
    cases hl : freeformLines s with
    | nil =>
      rw [hl] at hrows
      cases hrows
      exact iff_of_true ⟨"No se pudo interpretar la matriz", rfl⟩ (Or.inl rfl)
    | cons l0 rest =>
      rw [hl] at hrows
      cases rows with
      | nil => cases hrows
      | cons r0 rrest =>
        rw [List.forall₂_cons] at hrows
        obtain ⟨hr0, htail⟩ := hrows
        have hlen0 : r0.length = (lineTokens l0).length := hlens l0 r0 hr0
        show (∃ e, (if rrest.all (fun r => r.length = r0.length) then
            Except.ok (r0 :: rrest)
          else Except.error
            ("Todas las filas deben tener el mismo numero de columnas")) =
            Except.error e) ↔ _
        by_cases hall : rrest.all (fun r => r.length = r0.length) = true
        · rw [if_pos hall]
          refine iff_of_false ?_ ?_
          · rintro ⟨e, he⟩
            exact Except.noConfusion he
          · rintro (h1 | h2 | ⟨l0q, restq, heq, l, hlmem, hne⟩)
            · exact List.noConfusion h1
            · rw [← hl] at h2
              exact hbad h2
            · injection heq with e1 e2
              subst e1
              subst e2
              obtain ⟨r, hrmem, hlr⟩ := forall2_mem_left htail l hlmem
              have h6 : r.length = r0.length :=
                of_decide_eq_true (List.all_eq_true.mp hall r hrmem)
              have h7 : r.length = (lineTokens l).length := hlens l r hlr
              exact hne (by omega)
        · rw [if_neg hall]
          refine iff_of_true
            ⟨"Todas las filas deben tener el mismo numero de columnas", rfl⟩ ?_
          refine Or.inr (Or.inr ⟨l0, rest, rfl, ?_⟩)
          have h5 : ∃ r ∈ rrest, ¬(r.length = r0.length) := by
            by_contra hcon
            push_neg at hcon
            exact hall (List.all_eq_true.mpr fun r hr => decide_eq_true (hcon r hr))
          obtain ⟨r, hrmem, hne⟩ := h5
          obtain ⟨l, hlmem, hlr⟩ := forall2_mem_right htail r hrmem
          have h7 : r.length = (lineTokens l).length := hlens l r hlr
          refine ⟨l, hlmem, ?_⟩
          omega

unseal Rat.add Rat.mul Rat.sub Rat.inv in
/-- C8 (counterexample): on input `"1"` the literal structure parses as a
bare number — not 2-dimensional, one of the claimed `ParseError` conditions —
yet `parse_matrix` succeeds: the `ndim != 2` rejection is caught inside the
`try` and the free-form fallback reads a 1×1 matrix. -/
theorem c8_counterexample :
    claimedNotTwoD ("1") = true ∧ parse_matrix ("1") = Except.ok [[1]] :=
  ⟨by decide, by rfl⟩

/-- C8 (amended): `parse_matrix` fails exactly when the stripped input is
empty, or the literal path yields no 2-D matrix and the free-form fallback
fails — no non-empty line after splitting, a token that is not a valid
number, or two lines with different token counts. -/
theorem c8_parse_matrix_failure (text : String) :
    (∃ e, parse_matrix text = Except.error e) ↔
      (trimChars text.toList = [] ∨
       (litParse (replaceSemis (trimChars text.toList)) = none ∧
        (freeformLines (trimChars text.toList) = [] ∨
         (∃ line ∈ freeformLines (trimChars text.toList),
            ∃ t ∈ lineTokens line, pyFloat t = none) ∨
         (∃ l0 rest, freeformLines (trimChars text.toList) = l0 :: rest ∧
            ∃ l ∈ rest, (lineTokens l).length ≠ (lineTokens l0).length)))) := by
  by_cases hemp : trimChars text.toList = []
  · have hpm : parse_matrix text = Except.error ("Entrada vacia") := by
      show (if (trimChars text.toList).isEmpty then Except.error ("Entrada vacia")
        else match litParse (replaceSemis (trimChars text.toList)) with
          | some m => Except.ok m
          | none => freeformRows (trimChars text.toList)) =
        Except.error ("Entrada vacia")
      rw [hemp]
      rfl
    exact iff_of_true ⟨"Entrada vacia", hpm⟩ (Or.inl hemp)
  · have hb : (trimChars text.toList).isEmpty = false := by
      cases hl : trimChars text.toList with
      | nil => exact absurd hl hemp
      | cons a t => rfl
    cases hlit : litParse (replaceSemis (trimChars text.toList)) with
    | some m =>
      have hpm : parse_matrix text = Except.ok m := by
        show (if (trimChars text.toList).isEmpty then Except.error ("Entrada vacia")
          else match litParse (replaceSemis (trimChars text.toList)) with
            | some m2 => Except.ok m2
            | none => freeformRows (trimChars text.toList)) = Except.ok m
        rw [hb, hlit]
        rfl
      refine iff_of_false ?_ ?_
      · rintro ⟨e, he⟩
        rw [hpm] at he
        exact Except.noConfusion he
      · rintro (h1 | ⟨h2, -⟩)
        · exact hemp h1
        · exact Option.noConfusion h2
    | none =>
      have hpm : parse_matrix text = freeformRows (trimChars text.toList) := by
        show (if (trimChars text.toList).isEmpty then Except.error ("Entrada vacia")
          else match litParse (replaceSemis (trimChars text.toList)) with
            | some m2 => Except.ok m2
            | none => freeformRows (trimChars text.toList)) =
          freeformRows (trimChars text.toList)
        rw [hb, hlit]
        rfl
      rw [hpm]
      constructor
      · intro hfail
        exact Or.inr ⟨rfl, (freeformRows_error_iff (trimChars text.toList)).mp hfail⟩
      · rintro (h1 | ⟨-, h2⟩)
        · exact absurd h1 hemp
        · exact (freeformRows_error_iff (trimChars text.toList)).mpr h2

end HkMatrix
